import Mathlib

/-!
Verification of the pymunk `autogeometry` module against its specification.

The Python file `pymunk/autogeometry.py` is a thin marshaling layer around the
Chipmunk2D C implementation (`cpMarch.c`, `cpPolyline.c`), which is compiled
into the package by `pymunk_extension_build.py` but whose sources are not part
of the excerpt.  Following the specification, the geometric algorithms are
modelled here over rational coordinates; the marshaling-level behaviour
(argument assertions, index checks of `PolylineSet`) is embedded directly from
the Python source.
-/

attribute [local semireducible] Rat.add Rat.mul Rat.inv Rat.sub

namespace Pymunk

/-- A 2D point with rational coordinates (the spec's immutable `Point`). -/
abbrev Point : Type := ℚ × ℚ

/-- Axis-aligned bounding box `(left, bottom, right, top)` (the spec's
`BoundingBox`). -/
structure BB where
  l : ℚ
  b : ℚ
  r : ℚ
  t : ℚ
deriving DecidableEq

/-- Errors of the spec's error-handling design: validation errors (fail fast,
before any processing) and bounds errors for out-of-range indexed reads. -/
inductive GeomError where
  | validation : GeomError
  | boundsError : GeomError
  | assertionError : GeomError
deriving DecidableEq

/-- Linear interpolation between `a` and `b`. -/
def flerp (a b s : ℚ) : ℚ := a + (b - a) * s

/-- Modelled from the spec: the crossing point parameter of an edge whose
endpoint sample values are `s0` and `s1`, for threshold `th` — "crossing
points are linearly interpolated along each crossed edge between the two
corner scalar values and `threshold`".  The division is only reached when
`s0` and `s1` lie on opposite sides of `th`, hence `s1 ≠ s0` there. -/
def midlerp (x0 x1 s0 s1 th : ℚ) : ℚ := flerp x0 x1 ((th - s0) / (s1 - s0))

/-- A traced segment: an ordered pair of points (directionality matters). -/
abbrev Seg : Type := Point × Point

/-- Modelled from the spec (the C `cpMarchCellSoft` is not in the excerpt):
classify one grid cell into one of the 16 marching-squares cases from which
corners exceed the threshold and emit 0, 1 or 2 boundary segments.  Corner
values: `a` at `(x0,y0)`, `b` at `(x1,y0)`, `c` at `(x0,y1)`, `d` at
`(x1,y1)`.  Soft mode: crossing points are linearly interpolated.  Segments
are oriented with the above-threshold region to the left of `v0 → v1`.
Ambiguous saddle cells are resolved by the fixed tie-break the spec
documents: the mean of the four corner values is compared against the
threshold to choose which diagonal pairing is inside. -/
def marchCellSoft (th a b c d x0 x1 y0 y1 : ℚ) : List Seg :=
  let pL : Point := (x0, midlerp y0 y1 a c th)
  let pB : Point := (midlerp x0 x1 a b th, y0)
  let pR : Point := (x1, midlerp y0 y1 b d th)
  let pT : Point := (midlerp x0 x1 c d th, y1)
  match decide (a > th), decide (b > th), decide (c > th), decide (d > th) with
  | false, false, false, false => []
  | true,  false, false, false => [(pB, pL)]
  | false, true,  false, false => [(pR, pB)]
  | true,  true,  false, false => [(pR, pL)]
  | false, false, true,  false => [(pL, pT)]
  | true,  false, true,  false => [(pB, pT)]
  | false, true,  true,  false =>
      if (a + b + c + d) / 4 > th then [(pL, pB), (pR, pT)] else [(pR, pB), (pL, pT)]
  | true,  true,  true,  false => [(pR, pT)]
  | false, false, false, true  => [(pT, pR)]
  | true,  false, false, true  =>
      if (a + b + c + d) / 4 > th then [(pB, pR), (pT, pL)] else [(pB, pL), (pT, pR)]
  | false, true,  false, true  => [(pT, pB)]
  | true,  true,  false, true  => [(pT, pL)]
  | false, false, true,  true  => [(pL, pR)]
  | true,  false, true,  true  => [(pB, pR)]
  | false, true,  true,  true  => [(pL, pB)]
  | true,  true,  true,  true  => []

/-- Modelled from the spec: aliased (hard) mode puts every crossing point at
the midpoint of the crossed cell edge instead of interpolating. -/
def marchCellHard (th a b c d x0 x1 y0 y1 : ℚ) : List Seg :=
  let pL : Point := (x0, (y0 + y1) / 2)
  let pB : Point := ((x0 + x1) / 2, y0)
  let pR : Point := (x1, (y0 + y1) / 2)
  let pT : Point := ((x0 + x1) / 2, y1)
  match decide (a > th), decide (b > th), decide (c > th), decide (d > th) with
  | false, false, false, false => []
  | true,  false, false, false => [(pB, pL)]
  | false, true,  false, false => [(pR, pB)]
  | true,  true,  false, false => [(pR, pL)]
  | false, false, true,  false => [(pL, pT)]
  | true,  false, true,  false => [(pB, pT)]
  | false, true,  true,  false =>
      if (a + b + c + d) / 4 > th then [(pL, pB), (pR, pT)] else [(pR, pB), (pL, pT)]
  | true,  true,  true,  false => [(pR, pT)]
  | false, false, false, true  => [(pT, pR)]
  | true,  false, false, true  =>
      if (a + b + c + d) / 4 > th then [(pB, pR), (pT, pL)] else [(pB, pL), (pT, pR)]
  | false, true,  false, true  => [(pT, pB)]
  | true,  true,  false, true  => [(pT, pL)]
  | false, false, true,  true  => [(pL, pR)]
  | true,  false, true,  true  => [(pB, pR)]
  | false, true,  true,  true  => [(pL, pB)]
  | true,  true,  true,  true  => []

/-- Modelled from the spec: the regular grid of `xs × ys` sample points spans
the bounding box; grid coordinate `i` of `n` maps to
`flerp lo hi (i / (n - 1))`. -/
def gridCoord (lo hi : ℚ) (n i : ℕ) : ℚ := flerp lo hi (i / ((n : ℚ) - 1))

/-- Modelled from the spec: sweep every grid cell in row-major order,
classify it with the given per-cell rule, and concatenate the emitted
segments.  Each grid point is sampled once (functionally, re-evaluation is
indistinguishable from the row-caching the spec describes). -/
def marchSegs (cell : ℚ → ℚ → ℚ → ℚ → ℚ → ℚ → ℚ → ℚ → ℚ → List Seg)
    (bb : BB) (xs ys : ℕ) (th : ℚ) (sample : Point → ℚ) : List Seg :=
  ((List.range (ys - 1)).map (fun j =>
    ((List.range (xs - 1)).map (fun i =>
      let x0 := gridCoord bb.l bb.r xs i
      let x1 := gridCoord bb.l bb.r xs (i + 1)
      let y0 := gridCoord bb.b bb.t ys j
      let y1 := gridCoord bb.b bb.t ys (j + 1)
      cell th (sample (x0, y0)) (sample (x1, y0)) (sample (x0, y1))
        (sample (x1, y1)) x0 x1 y0 y1)).flatten)).flatten

/-- Modelled from the spec: the guard of `trace` — `xSamples ≥ 2`,
`ySamples ≥ 2`, bounding box non-degenerate (positive width and height);
fails with a validation error otherwise, before any processing. -/
def marchValid (bb : BB) (xs ys : ℕ) : Prop :=
  2 ≤ xs ∧ 2 ≤ ys ∧ bb.l < bb.r ∧ bb.b < bb.t

instance (bb : BB) (xs ys : ℕ) : Decidable (marchValid bb xs ys) := by
  unfold marchValid; infer_instance

/-- Modelled from the spec: `trace` in anti-aliased (soft) mode.  The C
implementation `cpMarchSoft` is not part of the excerpt.  Returns the list of
segments passed to the segment callback, in emission order. -/
def march_soft (bb : BB) (xs ys : ℕ) (th : ℚ) (sample : Point → ℚ) :
    Except GeomError (List Seg) :=
  if marchValid bb xs ys then .ok (marchSegs marchCellSoft bb xs ys th sample)
  else .error .validation

/-- Modelled from the spec: `trace` in aliased (hard) mode.  The C
implementation `cpMarchHard` is not part of the excerpt. -/
def march_hard (bb : BB) (xs ys : ℕ) (th : ℚ) (sample : Point → ℚ) :
    Except GeomError (List Seg) :=
  if marchValid bb xs ys then .ok (marchSegs marchCellHard bb xs ys th sample)
  else .error .validation

/-- The 7×7 binary grid of the module docstring: columns 2–3 filled in every
row, columns 2–6 filled in the last two rows.  Row 0 is the first string of
the doctest's `img`. -/
def imgGrid : List (List Bool) :=
  let o : Bool := false
  let x : Bool := true
  [[o, o, x, x, o, o, o],
   [o, o, x, x, o, o, o],
   [o, o, x, x, o, o, o],
   [o, o, x, x, o, o, o],
   [o, o, x, x, o, o, o],
   [o, o, x, x, x, x, x],
   [o, o, x, x, x, x, x]]

/-- The doctest's sample function: truncate the point's coordinates to
integers and look the pixel up in the grid (`1` for `"x"`, `0` otherwise). -/
def imgSample (p : Point) : ℚ :=
  if (imgGrid.getD (Int.floor p.2).toNat []).getD (Int.floor p.1).toNat false
  then 1 else 0

/-- 2D cross product of the vectors `b - a` and `p - a`; zero iff `a`, `b`,
`p` are collinear, positive iff they turn counter-clockwise. -/
def cross (a b p : Point) : ℚ :=
  (b.1 - a.1) * (p.2 - a.2) - (b.2 - a.2) * (p.1 - a.1)

/-- Squared euclidean distance between two points. -/
def distSq (a b : Point) : ℚ := (b.1 - a.1) ^ 2 + (b.2 - a.2) ^ 2

/-- Split a list at the first element maximising `f`: returns
`some (pre, m, post)` with `l = pre ++ m :: post` and `f x ≤ f m` for every
`x` of `l`, or `none` for the empty list. -/
def splitAtMax (f : Point → ℚ) : List Point → Option (List Point × Point × List Point)
  | [] => none
  | p :: rest =>
    match splitAtMax f rest with
    | none => some ([], p, rest)
    | some (pre, m, post) =>
      if f m ≤ f p then some ([], p, rest) else some (p :: pre, m, post)

/-- Modelled from the spec (the C `cpPolylineSimplifyCurves` recursion is not
in the excerpt): the Douglas-Peucker recursion on one open chain.
`dpAux tolSq fuel a mid b` simplifies the chain `a :: mid ++ [b]` and returns
the result without its leading point `a`, so that results of adjacent chains
concatenate while keeping shared split points once.  The point of `mid` with
maximum perpendicular distance from the chord `a`–`b` is found; if that
distance is at most the tolerance (compared in squared form:
`cross² ≤ tol² · |b - a|²`) the whole span collapses to the two endpoints,
otherwise the chain splits there and both halves recurse.  `fuel` bounds the
recursion depth; callers pass `fuel > mid.length`, which makes the
fuel-exhaustion branch (which keeps the chain unsimplified) unreachable. -/
def dpAux (tolSq : ℚ) : ℕ → Point → List Point → Point → List Point
  | 0, _, mid, b => mid ++ [b]
  | fuel + 1, a, mid, b =>
    match splitAtMax (fun p => (cross a b p) ^ 2) mid with
    | none => [b]
    | some (pre, m, post) =>
      if (cross a b m) ^ 2 ≤ tolSq * distSq a b then [b]
      else dpAux tolSq fuel a pre m ++ dpAux tolSq fuel m post b

/-- Modelled from the spec: `isClosed` — a polyline is closed iff its first
vertex equals its last exactly (a single point is not a loop). -/
def is_closed (pts : List Point) : Bool :=
  decide (1 < pts.length) && decide (pts.head? = pts.getLast?)

/-- Modelled from the spec: curve simplification.  An open polyline runs
Douglas-Peucker directly; a closed polyline is first split at two
well-separated anchor points — the first vertex and its approximate
farthest-pair partner (the loop vertex farthest from it) — then the two open
chains are simplified and reassembled into a closed loop. -/
def simplifyCurvesRun (tolSq : ℚ) (pts : List Point) : List Point :=
  match pts with
  | [] => []
  | [p] => [p]
  | a :: r0 :: rs =>
    let rest := r0 :: rs
    let b := rest.getLast (List.cons_ne_nil r0 rs)
    let mid := rest.dropLast
    if a = b then
      match splitAtMax (fun p => distSq a p) mid with
      | none => pts
      | some (pre, m, post) =>
          a :: (dpAux tolSq (mid.length + 1) a pre m ++
                dpAux tolSq (mid.length + 1) m post a)
    else
      a :: dpAux tolSq (mid.length + 1) a mid b

/-- Modelled from the spec: `simplifyCurves` with its fail-fast validation
guard — fewer than 2 distinct points is a validation error. -/
def simplify_curves (pts : List Point) (tol : ℚ) : Except GeomError (List Point) :=
  if 2 ≤ pts.dedup.length then .ok (simplifyCurvesRun (tol ^ 2) pts)
  else .error .validation

/-- Modelled from the spec (the C `cpPolylineSimplifyVertexes` loop is not in
the excerpt): one decimation scan.  `decimateScan tolSq a l` walks `l` with
`a` the previously kept vertex; a vertex `v` is dropped when its
perpendicular deviation relative to its immediate neighbours (the previously
kept vertex and the next vertex `w`) is within tolerance, compared in squared
form.  The final vertex is never dropped. -/
def decimateScan (tolSq : ℚ) : Point → List Point → List Point
  | _, [] => []
  | _, [v] => [v]
  | a, v :: w :: rest =>
    if (cross a w v) ^ 2 ≤ tolSq * distSq a w then decimateScan tolSq a (w :: rest)
    else v :: decimateScan tolSq v (w :: rest)

/-- One full decimation pass over a polyline; the first vertex is never
dropped. -/
def decimateOnce (tolSq : ℚ) : List Point → List Point
  | [] => []
  | a :: rest => a :: decimateScan tolSq a rest

/-- Modelled from the spec: repeat decimation passes until no further removal
qualifies or the minimum vertex count is reached — 2 points for an open
polyline, 3 distinct points (4 list entries, the first repeated as last) for
a closed one.  Each productive pass strictly shrinks the polyline, so
`fuel = pts.length` passes suffice. -/
def vdLoop (tolSq : ℚ) : ℕ → List Point → List Point
  | 0, pts => pts
  | fuel + 1, pts =>
    if pts.length ≤ (if is_closed pts then 4 else 2) then pts
    else if (decimateOnce tolSq pts).length = pts.length then pts
    else vdLoop tolSq fuel (decimateOnce tolSq pts)

/-- Modelled from the spec: vertex decimation driver. -/
def simplifyVertexesRun (tolSq : ℚ) (pts : List Point) : List Point :=
  vdLoop tolSq pts.length pts

/-- Modelled from the spec: `simplifyVertices` with its fail-fast validation
guard — fewer than 2 distinct points is a validation error. -/
def simplify_vertexes (pts : List Point) (tol : ℚ) : Except GeomError (List Point) :=
  if 2 ≤ pts.dedup.length then .ok (simplifyVertexesRun (tol ^ 2) pts)
  else .error .validation

/-- The consecutive vertex triples of a polyline, in order. -/
def consecTriples : List Point → List (Point × Point × Point)
  | p :: q :: r :: rest => (p, q, r) :: consecTriples (q :: r :: rest)
  | _ => []

/-! ### The polyline assembler (`PolylineSet`) -/

/-- Remove the first polyline satisfying `p` from the set, returning it and
the remaining polylines in their original order. -/
def extractFirst (p : List Point → Bool) :
    List (List Point) → Option (List Point × List (List Point))
  | [] => none
  | l :: rest =>
    if p l then some (l, rest)
    else
      match extractFirst p rest with
      | none => none
      | some (x, r) => some (x, l :: r)

/-- An open polyline whose last point is `v` — per the spec a closed
polyline's endpoints are resolved (the loop is encoded by head = tail), so
only open polylines participate in endpoint matching. -/
def endMatch (v : Point) (l : List Point) : Bool :=
  decide (l.getLast? = some v) && ! is_closed l

/-- An open polyline whose first point is `v`. -/
def startMatch (v : Point) (l : List Point) : Bool :=
  decide (l.head? = some v) && ! is_closed l

/-- Modelled from the spec (the C `cpPolylineSetCollectSegment` is not in the
excerpt): add one segment to the set.  Matching is by exact coordinate
equality.  If `v0` is the tail of an open polyline whose head is `v1`, that
polyline is looped (closed by pushing `v1`, head = tail).  If `v0` is the
tail of one open polyline and `v1` the head of a different one, the two are
merged, preserving continuity — the merge case takes precedence over a plain
append, as §3's invariant requires.  Else `v0` at a tail appends `v1`, `v1`
at a head prepends `v0`, and otherwise a new polyline `[v0, v1]` starts. -/
def collectSeg (v0 v1 : Point) (lines : List (List Point)) : List (List Point) :=
  match extractFirst (endMatch v0) lines with
  | some (bef, rest1) =>
    if bef.head? = some v1 then (bef ++ [v1]) :: rest1
    else
      match extractFirst (startMatch v1) rest1 with
      | some (aft, rest2) => (bef ++ aft) :: rest2
      | none => (bef ++ [v1]) :: rest1
  | none =>
    match extractFirst (startMatch v1) lines with
    | some (aft, rest1) => (v0 :: aft) :: rest1
    | none => lines ++ [[v0, v1]]

/-- Feed a stream of segments to `collectSeg`, in order. -/
def collectFold (segs : List Seg) (lines : List (List Point)) : List (List Point) :=
  segs.foldl (fun st s => collectSeg s.1 s.2 st) lines

/-- Embedded from `PolylineSet.collect_segment` in `autogeometry.py`: the
Python layer asserts that both endpoints have exactly two components before
delegating to the C collector; a failing assertion raises `AssertionError`
and the set is left untouched.  The endpoints arrive as raw coordinate
sequences. -/
def collect_segment (v0 v1 : List ℚ) (lines : List (List Point)) :
    Except GeomError (List (List Point)) :=
  if v0.length = 2 ∧ v1.length = 2 then
    .ok (collectSeg (v0.getD 0 0, v0.getD 1 0) (v1.getD 0 0, v1.getD 1 0) lines)
  else .error .assertionError

/-- Embedded from `PolylineSet.__len__` in `autogeometry.py`: returns the
stored polyline count. -/
def polylineSetLen (lines : List (List Point)) : ℕ := lines.length

/-- Result of the Python `__getitem__`: a raised `IndexError` (`boundsError`),
a materialised point sequence, or an unchecked native read (the Python code
does not guard negative keys; `self._set.lines[key]` with a negative key is
an out-of-bounds C pointer access whose outcome the program does not
define). -/
inductive GetResult where
  | boundsError : GetResult
  | value : List Point → GetResult
  | unsafeRead : GetResult
deriving DecidableEq

/-- Embedded from `PolylineSet.__getitem__` in `autogeometry.py`: the only
guard is `key >= self._set.count`, which raises `IndexError`; an in-range
non-negative key materialises polyline `key`; a negative key passes the
guard and reaches the raw array read. -/
def getitem (lines : List (List Point)) (key : ℤ) : GetResult :=
  if (lines.length : ℤ) ≤ key then .boundsError
  else if 0 ≤ key then .value (lines.getD key.toNat [])
  else .unsafeRead

/-- The open-chain segments of a vertex list: one segment per consecutive
vertex pair. -/
def chainSegs : List Point → List Seg
  | p :: q :: rest => (p, q) :: chainSegs (q :: rest)
  | _ => []

/-- The segments of the closed loop through the given vertices, in order: the
consecutive pairs followed by the wrap-around segment from the last vertex
back to the first. -/
def loopSegs (l : List Point) : List Seg :=
  match l with
  | [] => []
  | p :: rest => chainSegs (p :: rest) ++ [((p :: rest).getLast (List.cons_ne_nil p rest), p)]

/-- The assembler invariant (the amended form of the spec's §3 invariant):
every stored polyline has at least two points, and no open polyline's tail
coincides with the head of a different open polyline — such a coincidence is
always consumed by a merge at insertion time.  Heads may coincide with heads,
tails with tails, and a closed polyline's resolved endpoint is exempt. -/
def LinkFree (l1 l2 : List Point) : Prop :=
  is_closed l1 = false → is_closed l2 = false →
    l1.getLast? ≠ l2.head? ∧ l2.getLast? ≠ l1.head?

def AssemblerInv (lines : List (List Point)) : Prop :=
  (∀ l ∈ lines, 2 ≤ l.length) ∧ List.Pairwise LinkFree lines

/-! ### The convex hull builder -/

/-- The consecutive vertex pairs (edges) of a polyline, in order. -/
def consecPairs : List Point → List (Point × Point)
  | p :: q :: rest => (p, q) :: consecPairs (q :: rest)
  | _ => []

/-- Lexicographic order on points: by x coordinate, ties by y. -/
def lexLeP (p q : Point) : Prop := p.1 < q.1 ∨ (p.1 = q.1 ∧ p.2 ≤ q.2)

/-- Strict lexicographic order on points. -/
def lexLtP (p q : Point) : Prop := p.1 < q.1 ∨ (p.1 = q.1 ∧ p.2 < q.2)

instance : DecidableRel lexLeP := fun p q => by unfold lexLeP; infer_instance

instance : DecidableRel lexLtP := fun p q => by unfold lexLtP; infer_instance

instance : IsTotal Point lexLeP :=
  ⟨fun p q => by
    unfold lexLeP
    rcases lt_trichotomy p.1 q.1 with h | h | h
    · exact Or.inl (Or.inl h)
    · rcases le_total p.2 q.2 with h2 | h2
      · exact Or.inl (Or.inr ⟨h, h2⟩)
      · exact Or.inr (Or.inr ⟨h.symm, h2⟩)
    · exact Or.inr (Or.inl h)⟩

instance : IsTrans Point lexLeP :=
  ⟨fun p q r hpq hqr => by
    unfold lexLeP at *
    rcases hpq with h1 | ⟨h1, h1b⟩ <;> rcases hqr with h2 | ⟨h2, h2b⟩
    · exact Or.inl (lt_trans h1 h2)
    · exact Or.inl (h2 ▸ h1)
    · exact Or.inl (h1 ▸ h2)
    · exact Or.inr ⟨h1.trans h2, le_trans h1b h2b⟩⟩

/-- Modelled from the spec: sort the points lexicographically. -/
def sortLex (pts : List Point) : List Point := pts.insertionSort lexLeP

/-- Modelled from the spec: one step of the monotone-chain scan.  The stack
holds the chain top-first.  The new point pops previously accepted points
while the last three do not turn strictly counter-clockwise, or while the
middle point lies within the collinearity tolerance of the chord between its
neighbours (compared in squared form), then pushes itself. -/
def scanStep (tolSq : ℚ) (p : Point) : List Point → List Point
  | b :: a :: rest =>
    if cross a b p ≤ 0 ∨ (cross a b p) ^ 2 ≤ tolSq * distSq a p then
      scanStep tolSq p (a :: rest)
    else p :: b :: a :: rest
  | acc => p :: acc

/-- Run the scan over a point list and return the chain bottom-first. -/
def buildChain (tolSq : ℚ) (pts : List Point) : List Point :=
  (pts.foldl (fun acc p => scanStep tolSq p acc) []).reverse

/-- Modelled from the spec (the C `cpPolylineToConvexHull` is not in the
excerpt): sort-and-scan (monotone chain) convex hull.  The distinct points
are sorted lexicographically; the lower chain scans them in order and the
upper chain in reverse order.  The chains are concatenated with the shared
maximal corner kept once; the upper chain already ends at the first (minimal)
point, which closes the loop — the output repeats the first point as its
last. -/
def convexHullRun (tolSq : ℚ) (pts : List Point) : List Point :=
  let sorted := sortLex pts.dedup
  (buildChain tolSq sorted).dropLast ++ buildChain tolSq sorted.reverse

/-- Modelled from the spec: `convexHull` with its fail-fast validation
guard — fewer than 2 distinct points is a validation error. -/
def to_convex_hull (pts : List Point) (tol : ℚ) : Except GeomError (List Point) :=
  if 2 ≤ pts.dedup.length then .ok (convexHullRun (tol ^ 2) pts)
  else .error .validation

/-- All points of a list are pairwise collinear. -/
def allCollinear (pts : List Point) : Prop :=
  ∀ p ∈ pts, ∀ q ∈ pts, ∀ r ∈ pts, cross p q r = 0

instance (pts : List Point) : Decidable (allCollinear pts) := by
  unfold allCollinear; infer_instance

/-- Pointwise negation, used to derive the upper chain's properties from the
lower chain's by symmetry. -/
def negP (p : Point) : Point := (-p.1, -p.2)

/-- The monotone-chain scan invariant, for the stack `σ` (chain in top-first
order) over the processed point prefix `P`: the stack is nonempty, its
members come from `P`, it strictly decreases lexicographically from the top,
consecutive triples read bottom-up turn strictly counter-clockwise, every
processed point lies on or to the left of every stack edge, and the stack
bottom is the lexicographic minimum of the processed points. -/
def StackInv (P σ : List Point) : Prop :=
  σ ≠ [] ∧
  (∀ y ∈ σ, y ∈ P) ∧
  List.Pairwise (fun u v => lexLtP v u) σ ∧
  (∀ t ∈ consecTriples σ, 0 < cross t.2.2 t.2.1 t.1) ∧
  (∀ pr ∈ consecPairs σ, ∀ q ∈ P, 0 ≤ cross pr.2 pr.1 q) ∧
  (∀ bt, σ.getLast? = some bt → ∀ q ∈ P, lexLeP bt q)

/-- The stack top is the lexicographic maximum of the processed points. -/
def TopMax (P σ : List Point) : Prop :=
  ∀ tp, σ.head? = some tp → ∀ q ∈ P, lexLeP q tp

/-! ### The convex decomposition engine (`convex_decomposition`) -/

/-- Rotate a vertex loop by one position: the head moves to the back. -/
def rot1 : List Point → List Point
  | [] => []
  | v :: T => T ++ [v]

/-- Rotate a vertex loop by `n` positions. -/
def rotN : ℕ → List Point → List Point
  | 0, V => V
  | n + 1, V => rotN n (rot1 V)

/-- Read a loop vertex cyclically (indices are taken modulo the length). -/
def cyclicGet (V : List Point) (k : ℕ) : Point :=
  V.getD (k % V.length) ((0 : ℚ), (0 : ℚ))

/-- Modelled from the spec: vertex `i` of the loop is reflex when the turn
through it deviates inward by more than the tolerance (near-convex notches
within tolerance are treated as convex). -/
def isReflexAt (tol : ℚ) (V : List Point) (i : ℕ) : Bool :=
  decide (cross (cyclicGet V (i + V.length - 1)) (cyclicGet V i)
    (cyclicGet V (i + 1)) < -tol)

/-- Modelled from the spec: locate a reflex vertex of the loop. -/
def findReflex (tol : ℚ) (V : List Point) : Option ℕ :=
  (List.range V.length).find? (isReflexAt tol V)

/-- Proper crossing test for two segments, by the four orientation signs. -/
def segProperCross (p1 p2 q1 q2 : Point) : Bool :=
  (decide ((0 < cross q1 q2 p1 ∧ cross q1 q2 p2 < 0) ∨
           (cross q1 q2 p1 < 0 ∧ 0 < cross q1 q2 p2))) &&
  (decide ((0 < cross p1 p2 q1 ∧ cross p1 p2 q2 < 0) ∨
           (cross p1 p2 q1 < 0 ∧ 0 < cross p1 p2 q2)))

/-- Modelled from the spec: a diagonal from the loop's (reflex) head vertex
to vertex `j` is valid when it leaves the head into the polygon's interior
cone and does not properly cross any polygon edge. -/
def validDiagonal (V : List Point) (j : ℕ) : Bool :=
  (decide (0 < cross (cyclicGet V (V.length - 1)) (cyclicGet V 0) (cyclicGet V j)) ||
   decide (0 < cross (cyclicGet V 0) (cyclicGet V 1) (cyclicGet V j))) &&
  ((List.range V.length).all (fun k =>
    ! segProperCross (cyclicGet V 0) (cyclicGet V j) (cyclicGet V k)
      (cyclicGet V (k + 1))))

/-- Modelled from the spec: find a valid splitting diagonal from the loop's
head vertex to a non-adjacent vertex. -/
def findDiagonal (V : List Point) : Option ℕ :=
  (List.range V.length).find? (fun j =>
    decide (2 ≤ j) && decide (j + 2 ≤ V.length) && validDiagonal V j)

/-- Modelled from the spec: recursively locate a reflex vertex, rotate it to
the front, split the loop along a valid diagonal into two sub-loops, and
recurse until every piece passes the (tolerance-relaxed) convexity test.  A
loop with no valid diagonal (e.g. self-intersecting input) is returned as-is,
best-effort.  `fuel` bounds the recursion; each split strictly shrinks both
pieces, so `fuel = V.length` suffices. -/
def decomposeAux (tol : ℚ) : ℕ → List Point → List (List Point)
  | 0, V => [V]
  | fuel + 1, V =>
    match findReflex tol V with
    | none => [V]
    | some i =>
      let W := rotN i V
      match findDiagonal W with
      | none => [W]
      | some j =>
          decomposeAux tol fuel (W.take (j + 1)) ++
          decomposeAux tol fuel (W.drop j ++ W.take 1)

/-- Close a vertex loop into a closed polyline by repeating its head last. -/
def closeLoop (V : List Point) : List Point := V ++ V.take 1

/-- Twice the signed (shoelace) area of a closed polyline, summed over its
consecutive edges. -/
def shoelaceClosed (L : List Point) : ℚ :=
  ((consecPairs L).map (fun pr => pr.1.1 * pr.2.2 - pr.2.1 * pr.1.2)).sum

/-- Twice the signed area of a vertex loop (closing edge included). -/
def shoelaceLoop (V : List Point) : ℚ := shoelaceClosed (closeLoop V)

/-- Modelled from the spec: `decompose` with its fail-fast validation guard —
an empty polygon is a validation error; otherwise the closed input polyline
is decomposed as a vertex loop and every piece is returned closed. -/
def convex_decomposition (P : List Point) (tol : ℚ) :
    Except GeomError (List (List Point)) :=
  if P = [] then .error .validation
  else .ok ((decomposeAux tol P.length P.dropLast).map closeLoop)

/-- A vertex loop passes the tolerance-relaxed convexity test: no cyclic
triple turns inward by more than the tolerance. -/
def ConvexLoop (tol : ℚ) (V : List Point) : Prop :=
  ∀ i < V.length,
    -tol ≤ cross (cyclicGet V (i + V.length - 1)) (cyclicGet V i)
      (cyclicGet V (i + 1))

instance (tol : ℚ) (V : List Point) : Decidable (ConvexLoop tol V) := by
  unfold ConvexLoop; infer_instance

end Pymunk

namespace Pymunk

/-- C1: tracing the documented 7×7 binary grid with `march_soft` over
`BB(0,0,6,6)`, `xSamples = 7`, `ySamples = 7`, `threshold = 0.5` invokes the
segment callback exactly 13 times. -/
theorem C1_march_soft_emits_13_segments :
    Except.map List.length (march_soft ⟨0, 0, 6, 6⟩ 7 7 (1 / 2) imgSample) =
      .ok 13 := by
  rfl

/-! ### Properties of `splitAtMax` -/

theorem splitAtMax_eq_none (f : Point → ℚ) (l : List Point) :
    splitAtMax f l = none ↔ l = [] := by
  cases l with
  | nil => simp [splitAtMax]
  | cons p rest =>
    simp only [splitAtMax]
    cases hs : splitAtMax f rest with
    | none => simp
    | some x =>
      obtain ⟨pre, m, post⟩ := x
      by_cases hf : f m ≤ f p <;> simp [hf]

theorem splitAtMax_eq (f : Point → ℚ) (l : List Point) :
    ∀ pre m post, splitAtMax f l = some (pre, m, post) → l = pre ++ m :: post := by
  induction l with
  | nil => intro pre m post h; simp [splitAtMax] at h
  | cons p rest ih =>
    intro pre m post h
    simp only [splitAtMax] at h
    cases hs : splitAtMax f rest with
    | none =>
      rw [hs] at h
      dsimp only at h
      simp only [Option.some.injEq, Prod.mk.injEq] at h
      obtain ⟨h1, h2, h3⟩ := h
      subst h1; subst h2; subst h3; rfl
    | some x =>
      obtain ⟨pre2, m2, post2⟩ := x
      rw [hs] at h
      dsimp only at h
      by_cases hf : f m2 ≤ f p
      · rw [if_pos hf] at h
        simp only [Option.some.injEq, Prod.mk.injEq] at h
        obtain ⟨h1, h2, h3⟩ := h
        subst h1; subst h2; subst h3; rfl
      · rw [if_neg hf] at h
        simp only [Option.some.injEq, Prod.mk.injEq] at h
        obtain ⟨h1, h2, h3⟩ := h
        subst h1; subst h2; subst h3
        rw [ih pre2 m2 post2 hs]; rfl

theorem splitAtMax_le (f : Point → ℚ) (l : List Point) :
    ∀ pre m post, splitAtMax f l = some (pre, m, post) →
      ∀ x ∈ l, f x ≤ f m := by
  induction l with
  | nil => intro pre m post h; simp [splitAtMax] at h
  | cons p rest ih =>
    intro pre m post h x hx
    simp only [splitAtMax] at h
    cases hs : splitAtMax f rest with
    | none =>
      rw [hs] at h
      dsimp only at h
      have hrest : rest = [] := (splitAtMax_eq_none f rest).mp hs
      subst hrest
      simp only [Option.some.injEq, Prod.mk.injEq] at h
      obtain ⟨_, h2, _⟩ := h
      subst h2
      simp at hx
      subst hx; exact le_refl _
    | some x2 =>
      obtain ⟨pre2, m2, post2⟩ := x2
      rw [hs] at h
      dsimp only at h
      by_cases hf : f m2 ≤ f p
      · rw [if_pos hf] at h
        simp only [Option.some.injEq, Prod.mk.injEq] at h
        obtain ⟨_, h2, _⟩ := h
        subst h2
        rcases List.mem_cons.mp hx with hx | hx
        · subst hx; exact le_refl _
        · exact le_trans (ih pre2 m2 post2 hs x hx) hf
      · rw [if_neg hf] at h
        simp only [Option.some.injEq, Prod.mk.injEq] at h
        obtain ⟨_, h2, _⟩ := h
        subst h2
        rcases List.mem_cons.mp hx with hx | hx
        · subst hx; exact le_of_lt (lt_of_not_le hf)
        · exact ih pre2 m2 post2 hs x hx

/-! ### Properties of the Douglas-Peucker recursion -/

theorem dpAux_sublist (tolSq : ℚ) :
    ∀ (fuel : ℕ) (a b : Point) (mid : List Point),
      (dpAux tolSq fuel a mid b).Sublist (mid ++ [b]) := by
  intro fuel
  induction fuel with
  | zero => intro a b mid; exact List.Sublist.refl _
  | succ fuel ih =>
    intro a b mid
    simp only [dpAux]
    cases hs : splitAtMax (fun p => (cross a b p) ^ 2) mid with
    | none => exact List.sublist_append_right mid [b]
    | some x =>
      obtain ⟨pre, m, post⟩ := x
      dsimp only
      by_cases hc : (cross a b m) ^ 2 ≤ tolSq * distSq a b
      · rw [if_pos hc]
        exact List.sublist_append_right mid [b]
      · rw [if_neg hc]
        have hmid := splitAtMax_eq _ mid pre m post hs
        subst hmid
        have h1 := ih a m pre
        have h2 := ih m b post
        have h3 := List.Sublist.append h1 h2
        have he : (pre ++ [m]) ++ (post ++ [b]) = (pre ++ m :: post) ++ [b] := by
          simp
        rw [he] at h3
        exact h3

theorem dpAux_getLast? (tolSq : ℚ) :
    ∀ (fuel : ℕ) (a b : Point) (mid : List Point),
      (dpAux tolSq fuel a mid b).getLast? = some b := by
  intro fuel
  induction fuel with
  | zero => intro a b mid; exact List.getLast?_concat mid
  | succ fuel ih =>
    intro a b mid
    simp only [dpAux]
    cases hs : splitAtMax (fun p => (cross a b p) ^ 2) mid with
    | none => rfl
    | some x =>
      obtain ⟨pre, m, post⟩ := x
      dsimp only
      by_cases hc : (cross a b m) ^ 2 ≤ tolSq * distSq a b
      · rw [if_pos hc]; rfl
      · rw [if_neg hc]
        have h2 := ih m b post
        have hne : dpAux tolSq fuel m post b ≠ [] := by
          intro hn; rw [hn] at h2; simp at h2
        rw [List.getLast?_append_of_ne_nil _ hne]
        exact h2

theorem dpAux_ne_nil (tolSq : ℚ) (fuel : ℕ) (a b : Point) (mid : List Point) :
    dpAux tolSq fuel a mid b ≠ [] := by
  intro hn
  have h := dpAux_getLast? tolSq fuel a b mid
  rw [hn] at h; simp at h

/-! ### Structural properties of `simplifyCurvesRun` -/

theorem simplifyCurvesRun_sublist (tolSq : ℚ) (pts : List Point) :
    (simplifyCurvesRun tolSq pts).Sublist pts := by
  match pts with
  | [] => exact List.Sublist.refl _
  | [p] => exact List.Sublist.refl _
  | a :: r0 :: rs =>
    simp only [simplifyCurvesRun]
    set rest : List Point := r0 :: rs with hrest
    have hne : rest ≠ [] := List.cons_ne_nil r0 rs
    set b := rest.getLast hne with hb
    set mid := rest.dropLast with hmid
    have hsplit : mid ++ [b] = rest := List.dropLast_append_getLast hne
    by_cases hab : a = b
    · rw [if_pos hab]
      cases hs : splitAtMax (fun p => distSq a p) mid with
      | none => exact List.Sublist.refl _
      | some x =>
        obtain ⟨pre, m, post⟩ := x
        apply List.Sublist.cons₂
        have hm := splitAtMax_eq _ mid pre m post hs
        have h1 := dpAux_sublist tolSq (mid.length + 1) a m pre
        have h2 := dpAux_sublist tolSq (mid.length + 1) m a post
        have h3 := List.Sublist.append h1 h2
        have he : (pre ++ [m]) ++ (post ++ [a]) = (pre ++ m :: post) ++ [a] := by
          simp
        rw [he, ← hm] at h3
        rw [hab] at h3 ⊢
        rw [hsplit] at h3
        exact h3
    · rw [if_neg hab]
      apply List.Sublist.cons₂
      have h1 := dpAux_sublist tolSq (mid.length + 1) a b mid
      rw [hsplit] at h1
      exact h1

theorem simplifyCurvesRun_head? (tolSq : ℚ) (pts : List Point) :
    (simplifyCurvesRun tolSq pts).head? = pts.head? := by
  match pts with
  | [] => rfl
  | [p] => rfl
  | a :: r0 :: rs =>
    simp only [simplifyCurvesRun]
    by_cases hab : a = (r0 :: rs).getLast (List.cons_ne_nil r0 rs)
    · rw [if_pos hab]
      cases hs : splitAtMax (fun p => distSq a p) (r0 :: rs).dropLast with
      | none => rfl
      | some x => obtain ⟨pre, m, post⟩ := x; rfl
    · rw [if_neg hab]; rfl

theorem simplifyCurvesRun_getLast?_open (tolSq : ℚ) (pts : List Point)
    (h : is_closed pts = false) :
    (simplifyCurvesRun tolSq pts).getLast? = pts.getLast? := by
  match pts with
  | [] => rfl
  | [p] => rfl
  | a :: r0 :: rs =>
    have hne : (r0 :: rs) ≠ [] := List.cons_ne_nil r0 rs
    have hab : a ≠ (r0 :: rs).getLast hne := by
      intro hcon
      rw [is_closed] at h
      simp only [Bool.and_eq_false_iff, decide_eq_false_iff_not] at h
      rcases h with h | h
      · exact h (by simp)
      · apply h
        rw [List.getLast?_eq_getLast _ (by simp : a :: r0 :: rs ≠ [])]
        rw [List.head?_cons]
        rw [List.getLast_cons hne, ← hcon]
    simp only [simplifyCurvesRun]
    rw [if_neg hab]
    have h1 := dpAux_getLast? tolSq ((r0 :: rs).dropLast.length + 1) a
      ((r0 :: rs).getLast hne) (r0 :: rs).dropLast
    have hne2 : dpAux tolSq ((r0 :: rs).dropLast.length + 1) a
        (r0 :: rs).dropLast ((r0 :: rs).getLast hne) ≠ [] :=
      dpAux_ne_nil _ _ _ _ _
    have hcons : (a :: dpAux tolSq ((r0 :: rs).dropLast.length + 1) a
        (r0 :: rs).dropLast ((r0 :: rs).getLast hne)).getLast? =
        (dpAux tolSq ((r0 :: rs).dropLast.length + 1) a
          (r0 :: rs).dropLast ((r0 :: rs).getLast hne)).getLast? := by
      have : a :: dpAux tolSq ((r0 :: rs).dropLast.length + 1) a
          (r0 :: rs).dropLast ((r0 :: rs).getLast hne) =
          [a] ++ dpAux tolSq ((r0 :: rs).dropLast.length + 1) a
            (r0 :: rs).dropLast ((r0 :: rs).getLast hne) := rfl
      rw [this, List.getLast?_append_of_ne_nil _ hne2]
    rw [hcons, h1]
    rw [List.getLast?_eq_getLast _ (by simp : a :: r0 :: rs ≠ [])]
    rw [List.getLast_cons hne]

/-! ### Structural properties of vertex decimation -/

theorem getLast?_cons_of_ne_nil {α : Type} {v : α} {l : List α} (h : l ≠ []) :
    (v :: l).getLast? = l.getLast? := by
  have he : v :: l = [v] ++ l := rfl
  rw [he, List.getLast?_append_of_ne_nil _ h]

theorem decimateScan_sublist (tolSq : ℚ) :
    ∀ (l : List Point) (a : Point), (decimateScan tolSq a l).Sublist l := by
  intro l
  induction l with
  | nil => intro a; exact List.Sublist.refl _
  | cons v tail ih =>
    intro a
    cases tail with
    | nil => exact List.Sublist.refl _
    | cons w rest =>
      simp only [decimateScan]
      by_cases hc : (cross a w v) ^ 2 ≤ tolSq * distSq a w
      · rw [if_pos hc]
        exact List.Sublist.cons v (ih a)
      · rw [if_neg hc]
        exact List.Sublist.cons₂ v (ih v)

theorem decimateScan_ne_nil (tolSq : ℚ) :
    ∀ (l : List Point) (a : Point), l ≠ [] → decimateScan tolSq a l ≠ [] := by
  intro l
  induction l with
  | nil => intro a h; exact absurd rfl h
  | cons v tail ih =>
    intro a _
    cases tail with
    | nil => simp [decimateScan]
    | cons w rest =>
      simp only [decimateScan]
      by_cases hc : (cross a w v) ^ 2 ≤ tolSq * distSq a w
      · rw [if_pos hc]; exact ih a (List.cons_ne_nil w rest)
      · rw [if_neg hc]; exact List.cons_ne_nil _ _

theorem decimateScan_getLast? (tolSq : ℚ) :
    ∀ (l : List Point) (a : Point), l ≠ [] →
      (decimateScan tolSq a l).getLast? = l.getLast? := by
  intro l
  induction l with
  | nil => intro a h; exact absurd rfl h
  | cons v tail ih =>
    intro a _
    cases tail with
    | nil => rfl
    | cons w rest =>
      simp only [decimateScan]
      by_cases hc : (cross a w v) ^ 2 ≤ tolSq * distSq a w
      · rw [if_pos hc, ih a (List.cons_ne_nil w rest)]
        rw [getLast?_cons_of_ne_nil (List.cons_ne_nil w rest)]
      · rw [if_neg hc]
        rw [getLast?_cons_of_ne_nil (decimateScan_ne_nil tolSq _ v (List.cons_ne_nil w rest))]
        rw [ih v (List.cons_ne_nil w rest)]
        rw [getLast?_cons_of_ne_nil (List.cons_ne_nil w rest)]

theorem decimateOnce_sublist (tolSq : ℚ) (pts : List Point) :
    (decimateOnce tolSq pts).Sublist pts := by
  cases pts with
  | nil => exact List.Sublist.refl _
  | cons a rest => exact List.Sublist.cons₂ a (decimateScan_sublist tolSq rest a)

theorem decimateOnce_head? (tolSq : ℚ) (pts : List Point) :
    (decimateOnce tolSq pts).head? = pts.head? := by
  cases pts <;> rfl

theorem decimateOnce_getLast? (tolSq : ℚ) (pts : List Point) :
    (decimateOnce tolSq pts).getLast? = pts.getLast? := by
  cases pts with
  | nil => rfl
  | cons a rest =>
    cases rest with
    | nil => rfl
    | cons w rest2 =>
      simp only [decimateOnce]
      rw [getLast?_cons_of_ne_nil (decimateScan_ne_nil tolSq _ a (List.cons_ne_nil w rest2))]
      rw [decimateScan_getLast? tolSq _ a (List.cons_ne_nil w rest2)]
      rw [getLast?_cons_of_ne_nil (List.cons_ne_nil w rest2)]

theorem vdLoop_sublist (tolSq : ℚ) :
    ∀ (fuel : ℕ) (pts : List Point), (vdLoop tolSq fuel pts).Sublist pts := by
  intro fuel
  induction fuel with
  | zero => intro pts; exact List.Sublist.refl _
  | succ fuel ih =>
    intro pts
    simp only [vdLoop]
    by_cases h1 : pts.length ≤ (if is_closed pts then 4 else 2)
    · rw [if_pos h1]
    · rw [if_neg h1]
      by_cases h2 : (decimateOnce tolSq pts).length = pts.length
      · rw [if_pos h2]
      · rw [if_neg h2]
        exact List.Sublist.trans (ih _) (decimateOnce_sublist tolSq pts)

theorem vdLoop_head? (tolSq : ℚ) :
    ∀ (fuel : ℕ) (pts : List Point), (vdLoop tolSq fuel pts).head? = pts.head? := by
  intro fuel
  induction fuel with
  | zero => intro pts; rfl
  | succ fuel ih =>
    intro pts
    simp only [vdLoop]
    by_cases h1 : pts.length ≤ (if is_closed pts then 4 else 2)
    · rw [if_pos h1]
    · rw [if_neg h1]
      by_cases h2 : (decimateOnce tolSq pts).length = pts.length
      · rw [if_pos h2]
      · rw [if_neg h2, ih _, decimateOnce_head?]

theorem vdLoop_getLast? (tolSq : ℚ) :
    ∀ (fuel : ℕ) (pts : List Point), (vdLoop tolSq fuel pts).getLast? = pts.getLast? := by
  intro fuel
  induction fuel with
  | zero => intro pts; rfl
  | succ fuel ih =>
    intro pts
    simp only [vdLoop]
    by_cases h1 : pts.length ≤ (if is_closed pts then 4 else 2)
    · rw [if_pos h1]
    · rw [if_neg h1]
      by_cases h2 : (decimateOnce tolSq pts).length = pts.length
      · rw [if_pos h2]
      · rw [if_neg h2, ih _, decimateOnce_getLast?]

theorem simplifyVertexesRun_sublist (tolSq : ℚ) (pts : List Point) :
    (simplifyVertexesRun tolSq pts).Sublist pts := vdLoop_sublist tolSq pts.length pts

theorem simplifyVertexesRun_head? (tolSq : ℚ) (pts : List Point) :
    (simplifyVertexesRun tolSq pts).head? = pts.head? := vdLoop_head? tolSq pts.length pts

theorem simplifyVertexesRun_getLast? (tolSq : ℚ) (pts : List Point) :
    (simplifyVertexesRun tolSq pts).getLast? = pts.getLast? :=
  vdLoop_getLast? tolSq pts.length pts

/-- C3: for every input polyline and every tolerance ≥ 0, the successful
output of `simplify_curves` and of `simplify_vertexes` is a subsequence of
the input point sequence (no synthesized points), its length is at most the
input length, and for an open input polyline both endpoints are present in
the output (the head and last points are preserved). -/
theorem C3_simplify_output_subsequence (pts out : List Point) (tol : ℚ)
    (htol : 0 ≤ tol)
    (h : simplify_curves pts tol = .ok out ∨ simplify_vertexes pts tol = .ok out) :
    out.Sublist pts ∧ out.length ≤ pts.length ∧
      (is_closed pts = false →
        out.head? = pts.head? ∧ out.getLast? = pts.getLast?) := by
  have hout : out = simplifyCurvesRun (tol ^ 2) pts ∨
      out = simplifyVertexesRun (tol ^ 2) pts := by
    rcases h with h | h
    · rw [simplify_curves] at h
      by_cases hd : 2 ≤ pts.dedup.length
      · rw [if_pos hd] at h
        simp only [Except.ok.injEq] at h
        exact Or.inl h.symm
      · rw [if_neg hd] at h; simp at h
    · rw [simplify_vertexes] at h
      by_cases hd : 2 ≤ pts.dedup.length
      · rw [if_pos hd] at h
        simp only [Except.ok.injEq] at h
        exact Or.inr h.symm
      · rw [if_neg hd] at h; simp at h
  rcases hout with rfl | rfl
  · exact ⟨simplifyCurvesRun_sublist _ _,
      (simplifyCurvesRun_sublist _ _).length_le,
      fun hcl => ⟨simplifyCurvesRun_head? _ _,
        simplifyCurvesRun_getLast?_open _ _ hcl⟩⟩
  · exact ⟨simplifyVertexesRun_sublist _ _,
      (simplifyVertexesRun_sublist _ _).length_le,
      fun _ => ⟨simplifyVertexesRun_head? _ _, simplifyVertexesRun_getLast? _ _⟩⟩

/-- Concrete witness for C3: the three-point bend simplified at tolerance 0. -/
theorem C3_simplify_output_subsequence_witness :
    ([((0 : ℚ), (0 : ℚ)), (1, 1), (2, 0)] : List Point).Sublist
        [((0 : ℚ), (0 : ℚ)), (1, 1), (2, 0)] ∧
      ([((0 : ℚ), (0 : ℚ)), (1, 1), (2, 0)] : List Point).length ≤
        ([((0 : ℚ), (0 : ℚ)), (1, 1), (2, 0)] : List Point).length ∧
      (is_closed [((0 : ℚ), (0 : ℚ)), (1, 1), (2, 0)] = false →
        ([((0 : ℚ), (0 : ℚ)), (1, 1), (2, 0)] : List Point).head? =
            ([((0 : ℚ), (0 : ℚ)), (1, 1), (2, 0)] : List Point).head? ∧
          ([((0 : ℚ), (0 : ℚ)), (1, 1), (2, 0)] : List Point).getLast? =
            ([((0 : ℚ), (0 : ℚ)), (1, 1), (2, 0)] : List Point).getLast?) :=
  C3_simplify_output_subsequence [((0 : ℚ), (0 : ℚ)), (1, 1), (2, 0)]
    [((0 : ℚ), (0 : ℚ)), (1, 1), (2, 0)] 0 le_rfl (Or.inl (by rfl))

/-! ### Tolerance 0: identity on polylines in general position -/

theorem cross_swap (a b p : Point) : cross a b p = -cross a p b := by
  simp only [cross]; ring

theorem cross_left (a b : Point) : cross a b a = 0 := by
  simp only [cross]; ring

theorem cross_right (a b : Point) : cross a b b = 0 := by
  simp only [cross]; ring

theorem sq_le_zero_eq_zero {c : ℚ} (h : c ^ 2 ≤ 0) : c = 0 := by
  nlinarith [sq_nonneg c]

theorem distSq_eq_zero {a x : Point} (h : distSq a x ≤ 0) : x = a := by
  rw [distSq] at h
  have h1 : (x.1 - a.1) ^ 2 ≤ 0 := by nlinarith [sq_nonneg (x.2 - a.2)]
  have h2 : (x.2 - a.2) ^ 2 ≤ 0 := by nlinarith [sq_nonneg (x.1 - a.1)]
  have h3 := sq_le_zero_eq_zero h1
  have h4 := sq_le_zero_eq_zero h2
  exact Prod.ext (by linarith) (by linarith)

theorem cross_parallel {a b p q : Point} (hab : a ≠ b)
    (hp : cross a b p = 0) (hq : cross a b q = 0) : cross a p q = 0 := by
  have hii : (b.1 - a.1) * cross a p q =
      (p.1 - a.1) * cross a b q - (q.1 - a.1) * cross a b p := by
    simp only [cross]; ring
  have hjj : (b.2 - a.2) * cross a p q =
      (p.2 - a.2) * cross a b q - (q.2 - a.2) * cross a b p := by
    simp only [cross]; ring
  rw [hp, hq] at hii hjj
  simp only [mul_zero, sub_zero] at hii hjj
  by_cases h1 : b.1 - a.1 = 0
  · by_cases h2 : b.2 - a.2 = 0
    · exact absurd (Prod.ext (by linarith) (by linarith)).symm hab
    · rcases mul_eq_zero.mp hjj with h | h
      · exact absurd h h2
      · exact h
  · rcases mul_eq_zero.mp hii with h | h
    · exact absurd h h1
    · exact h

theorem consecTriples_cons (x : Point) (l : List Point) :
    ∀ t ∈ consecTriples l, t ∈ consecTriples (x :: l) := by
  intro t ht
  cases l with
  | nil => simp [consecTriples] at ht
  | cons p l2 =>
    cases l2 with
    | nil => simp [consecTriples] at ht
    | cons q l3 =>
      have he : consecTriples (x :: p :: q :: l3) =
          (x, p, q) :: consecTriples (p :: q :: l3) := rfl
      rw [he]
      exact List.mem_cons_of_mem _ ht

theorem consecTriples_append_left (r : List Point) :
    ∀ (l : List Point), ∀ t ∈ consecTriples l, t ∈ consecTriples (l ++ r) := by
  intro l
  induction l with
  | nil => intro t ht; simp [consecTriples] at ht
  | cons p l2 ih =>
    intro t ht
    cases l2 with
    | nil => simp [consecTriples] at ht
    | cons q l3 =>
      cases l3 with
      | nil => simp [consecTriples] at ht
      | cons r2 l4 =>
        rw [show consecTriples (p :: q :: r2 :: l4) =
          (p, q, r2) :: consecTriples (q :: r2 :: l4) from rfl] at ht
        rcases List.mem_cons.mp ht with h | h
        · subst h
          rw [show (p :: q :: r2 :: l4) ++ r = p :: q :: r2 :: (l4 ++ r) from rfl]
          rw [show consecTriples (p :: q :: r2 :: (l4 ++ r)) =
            (p, q, r2) :: consecTriples (q :: r2 :: (l4 ++ r)) from rfl]
          exact List.mem_cons_self _ _
        · have h2 := ih t h
          rw [show (p :: q :: r2 :: l4) ++ r = p :: ((q :: r2 :: l4) ++ r) from rfl]
          exact consecTriples_cons p _ t h2

theorem consecTriples_append_right (r : List Point) :
    ∀ (l : List Point), ∀ t ∈ consecTriples r, t ∈ consecTriples (l ++ r) := by
  intro l
  induction l with
  | nil => intro t ht; simpa using ht
  | cons p l2 ih =>
    intro t ht
    exact consecTriples_cons p _ t (ih t ht)

theorem dpAux_id :
    ∀ (fuel : ℕ) (a b : Point) (mid : List Point), mid.length < fuel → a ≠ b →
      (∀ t ∈ consecTriples (a :: mid ++ [b]), cross t.1 t.2.1 t.2.2 ≠ 0) →
      dpAux 0 fuel a mid b = mid ++ [b] := by
  intro fuel
  induction fuel with
  | zero => intro a b mid hlen; exact absurd hlen (Nat.not_lt_zero _)
  | succ fuel ih =>
    intro a b mid hlen hab H
    simp only [dpAux]
    cases hs : splitAtMax (fun p => (cross a b p) ^ 2) mid with
    | none =>
      have hm : mid = [] := (splitAtMax_eq_none _ _).mp hs
      subst hm; rfl
    | some x =>
      obtain ⟨pre, m, post⟩ := x
      dsimp only
      have hmid := splitAtMax_eq _ mid pre m post hs
      have hmax := splitAtMax_le _ mid pre m post hs
      have hm0 : cross a b m ≠ 0 := by
        intro h0
        have hall : ∀ x ∈ mid, cross a b x = 0 := by
          intro x hx
          apply sq_le_zero_eq_zero
          have hle := hmax x hx
          rw [h0] at hle
          simpa using hle
        cases hmtl : mid with
        | nil => rw [hmtl] at hmid; simp at hmid
        | cons m0 rest2 =>
          cases rest2 with
          | nil =>
            have ht : (a, m0, b) ∈ consecTriples (a :: mid ++ [b]) := by
              rw [hmtl]; exact List.mem_cons_self _ _
            apply H _ ht
            have h1 : cross a b m0 = 0 := hall m0 (by rw [hmtl]; exact List.mem_cons_self _ _)
            rw [cross_swap] at h1
            dsimp only
            linarith
          | cons m1 rest3 =>
            have ht : (a, m0, m1) ∈ consecTriples (a :: mid ++ [b]) := by
              rw [hmtl]; exact List.mem_cons_self _ _
            apply H _ ht
            have h1 : cross a b m0 = 0 :=
              hall m0 (by rw [hmtl]; exact List.mem_cons_self _ _)
            have h2 : cross a b m1 = 0 :=
              hall m1 (by rw [hmtl]; exact List.mem_cons_of_mem _ (List.mem_cons_self _ _))
            exact cross_parallel hab h1 h2
      have hcond : ¬ ((cross a b m) ^ 2 ≤ 0 * distSq a b) := by
        rw [zero_mul]
        intro hc
        exact hm0 (sq_le_zero_eq_zero hc)
      rw [if_neg hcond]
      have hlen1 : pre.length < fuel := by
        rw [hmid] at hlen; simp only [List.length_append, List.length_cons] at hlen; omega
      have hlen2 : post.length < fuel := by
        rw [hmid] at hlen; simp only [List.length_append, List.length_cons] at hlen; omega
      have ham : a ≠ m := by
        intro he; rw [he] at hm0; exact hm0 (cross_left m b)
      have hmb : m ≠ b := by
        intro he; rw [he] at hm0; exact hm0 (cross_right a b)
      have H1 : ∀ t ∈ consecTriples (a :: pre ++ [m]), cross t.1 t.2.1 t.2.2 ≠ 0 := by
        intro t ht
        apply H
        have he : a :: mid ++ [b] = (a :: pre ++ [m]) ++ (post ++ [b]) := by
          rw [hmid]; simp
        rw [he]
        exact consecTriples_append_left _ _ t ht
      have H2 : ∀ t ∈ consecTriples (m :: post ++ [b]), cross t.1 t.2.1 t.2.2 ≠ 0 := by
        intro t ht
        apply H
        have he : a :: mid ++ [b] = (a :: pre) ++ (m :: post ++ [b]) := by
          rw [hmid]; simp
        rw [he]
        exact consecTriples_append_right _ _ t ht
      rw [ih a m pre hlen1 ham H1, ih m b post hlen2 hmb H2]
      rw [hmid]; simp

theorem simplifyCurvesRun_id (pts : List Point)
    (H : ∀ t ∈ consecTriples pts, cross t.1 t.2.1 t.2.2 ≠ 0) :
    simplifyCurvesRun 0 pts = pts := by
  match pts with
  | [] => rfl
  | [p] => rfl
  | a :: r0 :: rs =>
    simp only [simplifyCurvesRun]
    have hne : (r0 :: rs) ≠ [] := List.cons_ne_nil r0 rs
    have hsplit : (r0 :: rs).dropLast ++ [(r0 :: rs).getLast hne] = r0 :: rs :=
      List.dropLast_append_getLast hne
    by_cases hab : a = (r0 :: rs).getLast hne
    · rw [if_pos hab]
      cases hs : splitAtMax (fun p => distSq a p) (r0 :: rs).dropLast with
      | none => rfl
      | some x =>
        obtain ⟨pre, m, post⟩ := x
        dsimp only
        have hmid := splitAtMax_eq _ _ pre m post hs
        have hmax := splitAtMax_le _ _ pre m post hs
        have Hp : ∀ t ∈ consecTriples (a :: (r0 :: rs).dropLast ++
            [(r0 :: rs).getLast hne]), cross t.1 t.2.1 t.2.2 ≠ 0 := by
          intro t ht
          apply H
          rw [show a :: r0 :: rs = a :: ((r0 :: rs).dropLast ++
            [(r0 :: rs).getLast hne]) from by rw [hsplit]]
          exact ht
        have hma : m ≠ a := by
          intro he
          have hall : ∀ x ∈ (r0 :: rs).dropLast, x = a := by
            intro x hx
            apply distSq_eq_zero
            have hle := hmax x hx
            rw [he] at hle
            have hz : distSq a a = 0 := by simp [distSq]
            rw [hz] at hle
            exact hle
          cases hmtl : (r0 :: rs).dropLast with
          | nil => rw [hmtl] at hmid; simp at hmid
          | cons m0 rest2 =>
            have hm0a : m0 = a := hall m0 (by rw [hmtl]; exact List.mem_cons_self _ _)
            cases rest2 with
            | nil =>
              have ht : (a, m0, (r0 :: rs).getLast hne) ∈ consecTriples
                  (a :: (r0 :: rs).dropLast ++ [(r0 :: rs).getLast hne]) := by
                rw [hmtl]; exact List.mem_cons_self _ _
              apply Hp _ ht
              dsimp only
              rw [hm0a, ← hab]
              exact cross_left a a
            | cons m1 rest3 =>
              have hm1a : m1 = a :=
                hall m1 (by rw [hmtl]; exact List.mem_cons_of_mem _ (List.mem_cons_self _ _))
              have ht : (a, m0, m1) ∈ consecTriples
                  (a :: (r0 :: rs).dropLast ++ [(r0 :: rs).getLast hne]) := by
                rw [hmtl]; exact List.mem_cons_self _ _
              apply Hp _ ht
              dsimp only
              rw [hm0a, hm1a]
              exact cross_left a a
        have hlen1 : pre.length < (r0 :: rs).dropLast.length + 1 := by
          rw [hmid]; simp only [List.length_append, List.length_cons]; omega
        have hlen2 : post.length < (r0 :: rs).dropLast.length + 1 := by
          rw [hmid]; simp only [List.length_append, List.length_cons]; omega
        have H1 : ∀ t ∈ consecTriples (a :: pre ++ [m]), cross t.1 t.2.1 t.2.2 ≠ 0 := by
          intro t ht
          apply Hp
          have he : a :: (r0 :: rs).dropLast ++ [(r0 :: rs).getLast hne] =
              (a :: pre ++ [m]) ++ (post ++ [(r0 :: rs).getLast hne]) := by
            rw [hmid]; simp
          rw [he]
          exact consecTriples_append_left _ _ t ht
        have H2 : ∀ t ∈ consecTriples (m :: post ++ [a]), cross t.1 t.2.1 t.2.2 ≠ 0 := by
          intro t ht
          apply Hp
          have he : a :: (r0 :: rs).dropLast ++ [(r0 :: rs).getLast hne] =
              (a :: pre) ++ (m :: post ++ [(r0 :: rs).getLast hne]) := by
            rw [hmid]; simp
          rw [he, ← hab]
          exact consecTriples_append_right _ _ t ht
        rw [dpAux_id _ a m pre hlen1 (fun he => hma he.symm) H1]
        rw [dpAux_id _ m a post hlen2 hma H2]
        have he2 : (pre ++ [m]) ++ (post ++ [a]) = r0 :: rs := by
          rw [← hsplit, hmid, ← hab]
          simp
        rw [he2]
    · rw [if_neg hab]
      have Hp : ∀ t ∈ consecTriples (a :: (r0 :: rs).dropLast ++
          [(r0 :: rs).getLast hne]), cross t.1 t.2.1 t.2.2 ≠ 0 := by
        intro t ht
        apply H
        rw [show a :: r0 :: rs = a :: ((r0 :: rs).dropLast ++
          [(r0 :: rs).getLast hne]) from by rw [hsplit]]
        exact ht
      rw [dpAux_id _ a _ _ (Nat.lt_succ_self _) hab Hp]
      rw [hsplit]

theorem decimateScan_id :
    ∀ (l : List Point) (a : Point),
      (∀ t ∈ consecTriples (a :: l), cross t.1 t.2.1 t.2.2 ≠ 0) →
      decimateScan 0 a l = l := by
  intro l
  induction l with
  | nil => intro a _; rfl
  | cons v tail ih =>
    intro a H
    cases tail with
    | nil => rfl
    | cons w rest =>
      simp only [decimateScan]
      have ht : (a, v, w) ∈ consecTriples (a :: v :: w :: rest) :=
        List.mem_cons_self _ _
      have hvw : cross a v w ≠ 0 := H _ ht
      have hc : ¬ ((cross a w v) ^ 2 ≤ 0 * distSq a w) := by
        rw [zero_mul]
        intro hc0
        have h0 := sq_le_zero_eq_zero hc0
        rw [cross_swap] at h0
        exact hvw (by linarith)
      rw [if_neg hc]
      congr 1
      exact ih v (fun t htt => H t (consecTriples_cons a _ t htt))

theorem simplifyVertexesRun_id (pts : List Point)
    (H : ∀ t ∈ consecTriples pts, cross t.1 t.2.1 t.2.2 ≠ 0) :
    simplifyVertexesRun 0 pts = pts := by
  have hone : decimateOnce 0 pts = pts := by
    cases pts with
    | nil => rfl
    | cons a rest =>
      simp only [decimateOnce]
      rw [decimateScan_id rest a H]
  rw [simplifyVertexesRun]
  cases hf : pts.length with
  | zero => rfl
  | succ n =>
    simp only [vdLoop]
    by_cases h1 : pts.length ≤ (if is_closed pts then 4 else 2)
    · rw [if_pos h1]
    · rw [if_neg h1, hone, if_pos rfl]

/-- C4 counterexample: at tolerance 0 an exactly-collinear interior vertex of
a duplicate-free polyline is removed by both simplifiers, so the output is
not the input unchanged. -/
theorem C4_counterexample :
    ([((0 : ℚ), (0 : ℚ)), (1, 0), (2, 0)] : List Point).Nodup ∧
      simplify_curves [((0 : ℚ), (0 : ℚ)), (1, 0), (2, 0)] 0 =
        .ok [((0 : ℚ), (0 : ℚ)), (2, 0)] ∧
      simplify_vertexes [((0 : ℚ), (0 : ℚ)), (1, 0), (2, 0)] 0 =
        .ok [((0 : ℚ), (0 : ℚ)), (2, 0)] :=
  ⟨by decide, by rfl, by rfl⟩

/-- C4 (amended): for tolerance 0 the simplifiers return the input polyline
unchanged provided no interior vertex has zero deviation from its
neighbours — that is, no three consecutive points are collinear (which also
rules out consecutive duplicates); an exactly-collinear interior vertex may
additionally be collapsed, not only exact duplicates. -/
theorem C4_tolerance_zero_identity (pts out : List Point)
    (H : ∀ t ∈ consecTriples pts, cross t.1 t.2.1 t.2.2 ≠ 0)
    (h : simplify_curves pts 0 = .ok out ∨ simplify_vertexes pts 0 = .ok out) :
    out = pts := by
  have hz : ((0 : ℚ)) ^ 2 = 0 := by norm_num
  rcases h with h | h
  · rw [simplify_curves] at h
    by_cases hd : 2 ≤ pts.dedup.length
    · rw [if_pos hd] at h
      simp only [Except.ok.injEq] at h
      rw [← h, hz, simplifyCurvesRun_id pts H]
    · rw [if_neg hd] at h; simp at h
  · rw [simplify_vertexes] at h
    by_cases hd : 2 ≤ pts.dedup.length
    · rw [if_pos hd] at h
      simp only [Except.ok.injEq] at h
      rw [← h, hz, simplifyVertexesRun_id pts H]
    · rw [if_neg hd] at h; simp at h

/-- Concrete witness for C4: a strict bend is returned unchanged at
tolerance 0. -/
theorem C4_tolerance_zero_identity_witness :
    ([((0 : ℚ), (0 : ℚ)), (1, 1), (2, 0)] : List Point) =
      [((0 : ℚ), (0 : ℚ)), (1, 1), (2, 0)] :=
  C4_tolerance_zero_identity [((0 : ℚ), (0 : ℚ)), (1, 1), (2, 0)]
    [((0 : ℚ), (0 : ℚ)), (1, 1), (2, 0)] (by decide) (Or.inl (by rfl))

/-! ### The Python marshaling layer: argument assertions and indexed reads -/

/-- C10: `collect_segment` checks its arguments before touching the set — a
call in which `v0` or `v1` does not have exactly 2 components raises
`AssertionError` (the set state is not passed to the collector, hence
unchanged), and for every pair of length-2 arguments the assertions pass and
the segment is handed to the collector. -/
theorem C10_collect_segment_asserts (v0 v1 : List ℚ) (lines : List (List Point)) :
    (¬(v0.length = 2 ∧ v1.length = 2) →
      collect_segment v0 v1 lines = .error .assertionError) ∧
    (v0.length = 2 → v1.length = 2 →
      collect_segment v0 v1 lines =
        .ok (collectSeg (v0.getD 0 0, v0.getD 1 0) (v1.getD 0 0, v1.getD 1 0) lines)) := by
  constructor
  · intro h
    rw [collect_segment, if_neg h]
  · intro h1 h2
    rw [collect_segment, if_pos ⟨h1, h2⟩]

/-- Concrete witness for C10: a one-component `v0` is rejected, a pair of
two-component endpoints is collected. -/
theorem C10_collect_segment_asserts_witness :
    collect_segment [(0 : ℚ)] [(1 : ℚ), (1 : ℚ)] [] = .error .assertionError ∧
      collect_segment [(0 : ℚ), (0 : ℚ)] [(1 : ℚ), (1 : ℚ)] [] =
        .ok [[((0 : ℚ), (0 : ℚ)), ((1 : ℚ), (1 : ℚ))]] :=
  ⟨(C10_collect_segment_asserts [(0 : ℚ)] [(1 : ℚ), (1 : ℚ)] []).1 (by decide),
   by
    rw [(C10_collect_segment_asserts [(0 : ℚ), (0 : ℚ)] [(1 : ℚ), (1 : ℚ)] []).2
      (by decide) (by decide)]
    rfl⟩

/-- C9 counterexample: a negative index does not fail with a bounds error —
the Python guard only checks `key >= count`, so `-1` slips past it into an
unchecked native read, even on the empty set. -/
theorem C9_counterexample :
    getitem ([] : List (List Point)) (-1) ≠ .boundsError ∧
      getitem ([] : List (List Point)) (-1) = .unsafeRead := by
  constructor
  · intro h
    rw [show getitem ([] : List (List Point)) (-1) = .unsafeRead from rfl] at h
    cases h
  · rfl

/-- C9 (amended): `len` returns the number of polylines held; an indexed read
with `0 ≤ i < len` returns the materialised ordered point sequence of
polyline `i`; an index `≥ len` fails with a bounds error; a *negative* index
is not range-checked — it passes the guard and reaches an out-of-bounds
native read. -/
theorem C9_getitem_bounds (lines : List (List Point)) (key : ℤ) :
    polylineSetLen lines = lines.length ∧
      ((lines.length : ℤ) ≤ key → getitem lines key = .boundsError) ∧
      (0 ≤ key → key < (lines.length : ℤ) →
        getitem lines key = .value (lines.getD key.toNat [])) ∧
      (key < 0 → getitem lines key = .unsafeRead) := by
  refine ⟨rfl, ?_, ?_, ?_⟩
  · intro h
    rw [getitem, if_pos h]
  · intro h1 h2
    rw [getitem, if_neg (by omega), if_pos h1]
  · intro h
    rw [getitem, if_neg (by omega)]
    rw [if_neg (by omega)]

/-- Concrete witness for C9 at a one-element set and index 0. -/
theorem C9_getitem_bounds_witness :
    polylineSetLen [[((1 : ℚ), (2 : ℚ))]] = ([[((1 : ℚ), (2 : ℚ))]] : List (List Point)).length ∧
      (((([[((1 : ℚ), (2 : ℚ))]] : List (List Point)).length : ℤ)) ≤ 0 →
        getitem [[((1 : ℚ), (2 : ℚ))]] 0 = .boundsError) ∧
      ((0 : ℤ) ≤ 0 → (0 : ℤ) < (([[((1 : ℚ), (2 : ℚ))]] : List (List Point)).length : ℤ) →
        getitem [[((1 : ℚ), (2 : ℚ))]] 0 =
          .value (([[((1 : ℚ), (2 : ℚ))]] : List (List Point)).getD ((0 : ℤ)).toNat [])) ∧
      ((0 : ℤ) < 0 → getitem [[((1 : ℚ), (2 : ℚ))]] 0 = .unsafeRead) :=
  C9_getitem_bounds [[((1 : ℚ), (2 : ℚ))]] 0

/-! ### The assembler invariant (C7) -/

theorem head?_append_left {α : Type} {l₁ : List α} (l₂ : List α) (h : l₁ ≠ []) :
    (l₁ ++ l₂).head? = l₁.head? := by
  cases l₁ with
  | nil => exact absurd rfl h
  | cons a t => rfl

theorem ne_nil_of_two_le {α : Type} {l : List α} (h : 2 ≤ l.length) : l ≠ [] := by
  intro he; subst he; simp at h

theorem extractFirst_some {p : List Point → Bool} :
    ∀ (L : List (List Point)) (x : List Point) (rest : List (List Point)),
      extractFirst p L = some (x, rest) →
      p x = true ∧ ∃ l₁ l₂, L = l₁ ++ x :: l₂ ∧ rest = l₁ ++ l₂ := by
  intro L
  induction L with
  | nil => intro x rest h; simp [extractFirst] at h
  | cons l tail ih =>
    intro x rest h
    simp only [extractFirst] at h
    by_cases hp : p l
    · rw [if_pos hp] at h
      simp only [Option.some.injEq, Prod.mk.injEq] at h
      obtain ⟨h1, h2⟩ := h
      subst h1; subst h2
      exact ⟨hp, [], tail, rfl, rfl⟩
    · rw [if_neg hp] at h
      cases he : extractFirst p tail with
      | none => rw [he] at h; cases h
      | some y =>
        obtain ⟨x2, r2⟩ := y
        rw [he] at h
        dsimp only at h
        simp only [Option.some.injEq, Prod.mk.injEq] at h
        obtain ⟨h1, h2⟩ := h
        subst h1
        obtain ⟨hpx, l₁, l₂, hL, hr⟩ := ih x2 r2 he
        subst h2
        refine ⟨hpx, l :: l₁, l₂, ?_, ?_⟩
        · rw [hL]; rfl
        · rw [hr, List.cons_append]

theorem extractFirst_none {p : List Point → Bool} :
    ∀ (L : List (List Point)), extractFirst p L = none → ∀ x ∈ L, p x = false := by
  intro L
  induction L with
  | nil => intro _ x hx; simp at hx
  | cons l tail ih =>
    intro h x hx
    simp only [extractFirst] at h
    by_cases hp : p l
    · rw [if_pos hp] at h; cases h
    · rw [if_neg hp] at h
      rcases List.mem_cons.mp hx with hx | hx
      · subst hx; exact Bool.eq_false_iff.mpr hp
      · apply ih _ x hx
        cases he : extractFirst p tail with
        | none => rfl
        | some y =>
          obtain ⟨a, b⟩ := y
          rw [he] at h
          cases h

theorem endMatch_true {v : Point} {l : List Point} (h : endMatch v l = true) :
    l.getLast? = some v ∧ is_closed l = false := by
  rw [endMatch, Bool.and_eq_true, decide_eq_true_eq, Bool.not_eq_true'] at h
  exact h

theorem startMatch_true {v : Point} {l : List Point} (h : startMatch v l = true) :
    l.head? = some v ∧ is_closed l = false := by
  rw [startMatch, Bool.and_eq_true, decide_eq_true_eq, Bool.not_eq_true'] at h
  exact h

theorem endMatch_false {v : Point} {l : List Point} (h : endMatch v l = false)
    (ho : is_closed l = false) : l.getLast? ≠ some v := by
  rw [endMatch, ho] at h
  simpa using h

theorem startMatch_false {v : Point} {l : List Point} (h : startMatch v l = false)
    (ho : is_closed l = false) : l.head? ≠ some v := by
  rw [startMatch, ho] at h
  simpa using h

theorem LinkFree_symm {a b : List Point} (h : LinkFree a b) : LinkFree b a := by
  intro h1 h2
  exact ⟨(h h2 h1).2, (h h2 h1).1⟩

theorem pairwise_extract {α : Type} {R : α → α → Prop}
    (hsymm : ∀ a b, R a b → R b a) (l₁ l₂ : List α) (x : α)
    (hpw : List.Pairwise R (l₁ ++ x :: l₂)) :
    List.Pairwise R (l₁ ++ l₂) ∧ ∀ y ∈ l₁ ++ l₂, R x y := by
  rw [List.pairwise_append] at hpw
  obtain ⟨pw1, pw2, hcross⟩ := hpw
  rw [List.pairwise_cons] at pw2
  obtain ⟨hx2, pw2m⟩ := pw2
  constructor
  · rw [List.pairwise_append]
    exact ⟨pw1, pw2m, fun a ha b hb => hcross a ha b (List.mem_cons_of_mem _ hb)⟩
  · intro y hy
    rcases List.mem_append.mp hy with hy | hy
    · exact hsymm _ _ (hcross y hy x (List.mem_cons_self _ _))
    · exact hx2 y hy

theorem is_closed_push {bef : List Point} {v1 : Point} (hb : bef ≠ [])
    (hh : bef.head? = some v1) : is_closed (bef ++ [v1]) = true := by
  rw [is_closed, Bool.and_eq_true, decide_eq_true_eq, decide_eq_true_eq]
  constructor
  · rw [List.length_append]
    cases bef with
    | nil => exact absurd rfl hb
    | cons a t => simp
  · rw [head?_append_left _ hb, hh, List.getLast?_concat]

/-- C7 counterexample: two segments that start at the same point produce two
distinct polylines sharing the endpoint `(0,0)` — endpoint matching is
directional (a segment's `v0` against tails, its `v1` against heads), so a
head-head coincidence does not merge. -/
theorem C7_counterexample :
    collectSeg ((0 : ℚ), (0 : ℚ)) ((1 : ℚ), (0 : ℚ))
        (collectSeg ((0 : ℚ), (0 : ℚ)) ((2 : ℚ), (2 : ℚ)) ([] : List (List Point))) =
      [[((0 : ℚ), (0 : ℚ)), ((2 : ℚ), (2 : ℚ))], [((0 : ℚ), (0 : ℚ)), ((1 : ℚ), (0 : ℚ))]] ∧
      ([((0 : ℚ), (0 : ℚ)), ((2 : ℚ), (2 : ℚ))] : List Point) ≠
        [((0 : ℚ), (0 : ℚ)), ((1 : ℚ), (0 : ℚ))] ∧
      ([((0 : ℚ), (0 : ℚ)), ((2 : ℚ), (2 : ℚ))] : List Point).head? =
        ([((0 : ℚ), (0 : ℚ)), ((1 : ℚ), (0 : ℚ))] : List Point).head? :=
  ⟨by rfl, by decide, by rfl⟩

/-- C7 (amended): after every `collectSeg` call the set never contains two
distinct *open* polylines of which one's tail coincides with the other's
head — such a coincidence is merged at insertion time.  Matching is
directional: head-head or tail-tail coincidences are allowed and do not
merge, and a closed polyline's head = tail endpoint is resolved and exempt. -/
theorem C7_assembler_invariant (v0 v1 : Point) (lines : List (List Point))
    (h : AssemblerInv lines) : AssemblerInv (collectSeg v0 v1 lines) := by
  obtain ⟨hlen, hpw⟩ := h
  rw [collectSeg]
  cases he : extractFirst (endMatch v0) lines with
  | some x =>
    obtain ⟨bef, rest1⟩ := x
    dsimp only
    obtain ⟨hpbef, l₁, l₂, hL, hrest⟩ := extractFirst_some _ _ _ he
    obtain ⟨hbefLast, hbefOpen⟩ := endMatch_true hpbef
    have hbefMem : bef ∈ lines := by
      rw [hL]; exact List.mem_append_right _ (List.mem_cons_self _ _)
    have hbefLen : 2 ≤ bef.length := hlen _ hbefMem
    have hbefNe : bef ≠ [] := ne_nil_of_two_le hbefLen
    have hrest1Mem : ∀ y ∈ rest1, y ∈ lines := by
      intro y hy
      rw [hL, hrest] at *
      rcases List.mem_append.mp hy with hy | hy
      · exact List.mem_append_left _ hy
      · exact List.mem_append_right _ (List.mem_cons_of_mem _ hy)
    have hpe := pairwise_extract (fun a b => LinkFree_symm) l₁ l₂ bef (by rw [← hL]; exact hpw)
    have hpwRest1 : List.Pairwise LinkFree rest1 := by rw [hrest]; exact hpe.1
    have hbefRest1 : ∀ y ∈ rest1, LinkFree bef y := by
      intro y hy; rw [hrest] at hy; exact hpe.2 y hy
    by_cases hloop : bef.head? = some v1
    · rw [if_pos hloop]
      constructor
      · intro l hl
        rcases List.mem_cons.mp hl with hl | hl
        · subst hl; rw [List.length_append]; omega
        · exact hlen _ (hrest1Mem _ hl)
      · rw [List.pairwise_cons]
        refine ⟨?_, hpwRest1⟩
        intro y hy hclNew hopY
        rw [is_closed_push hbefNe hloop] at hclNew
        cases hclNew
    · rw [if_neg hloop]
      cases hs : extractFirst (startMatch v1) rest1 with
      | some z =>
        obtain ⟨aft, rest2⟩ := z
        dsimp only
        obtain ⟨hpaft, m₁, m₂, hR1, hR2⟩ := extractFirst_some _ _ _ hs
        obtain ⟨haftHead, haftOpen⟩ := startMatch_true hpaft
        have haftMem : aft ∈ rest1 := by
          rw [hR1]; exact List.mem_append_right _ (List.mem_cons_self _ _)
        have haftLen : 2 ≤ aft.length := hlen _ (hrest1Mem _ haftMem)
        have haftNe : aft ≠ [] := ne_nil_of_two_le haftLen
        have hpe2 := pairwise_extract (fun a b => LinkFree_symm) m₁ m₂ aft
          (by rw [← hR1]; exact hpwRest1)
        have hpwRest2 : List.Pairwise LinkFree rest2 := by rw [hR2]; exact hpe2.1
        have haftRest2 : ∀ y ∈ rest2, LinkFree aft y := by
          intro y hy; rw [hR2] at hy; exact hpe2.2 y hy
        have hrest2Mem : ∀ y ∈ rest2, y ∈ rest1 := by
          intro y hy
          rw [hR2] at hy
          rw [hR1]
          rcases List.mem_append.mp hy with hy | hy
          · exact List.mem_append_left _ hy
          · exact List.mem_append_right _ (List.mem_cons_of_mem _ hy)
        constructor
        · intro l hl
          rcases List.mem_cons.mp hl with hl | hl
          · subst hl; rw [List.length_append]; omega
          · exact hlen _ (hrest1Mem _ (hrest2Mem _ hl))
        · rw [List.pairwise_cons]
          refine ⟨?_, hpwRest2⟩
          intro y hy _ hopY
          constructor
          · rw [List.getLast?_append_of_ne_nil _ haftNe]
            exact (haftRest2 y hy haftOpen hopY).1
          · rw [head?_append_left _ hbefNe]
            exact (hbefRest1 y (hrest2Mem _ hy) hbefOpen hopY).2
      | none =>
        dsimp only
        constructor
        · intro l hl
          rcases List.mem_cons.mp hl with hl | hl
          · subst hl; rw [List.length_append]; omega
          · exact hlen _ (hrest1Mem _ hl)
        · rw [List.pairwise_cons]
          refine ⟨?_, hpwRest1⟩
          intro y hy _ hopY
          constructor
          · rw [List.getLast?_concat]
            exact fun hc => startMatch_false (extractFirst_none _ hs y hy) hopY hc.symm
          · rw [head?_append_left _ hbefNe]
            exact (hbefRest1 y hy hbefOpen hopY).2
  | none =>
    dsimp only
    have hnoEnd := extractFirst_none _ he
    cases hs : extractFirst (startMatch v1) lines with
    | some z =>
      obtain ⟨aft, rest1⟩ := z
      dsimp only
      obtain ⟨hpaft, l₁, l₂, hL, hrest⟩ := extractFirst_some _ _ _ hs
      obtain ⟨haftHead, haftOpen⟩ := startMatch_true hpaft
      have haftMem : aft ∈ lines := by
        rw [hL]; exact List.mem_append_right _ (List.mem_cons_self _ _)
      have haftLen : 2 ≤ aft.length := hlen _ haftMem
      have haftNe : aft ≠ [] := ne_nil_of_two_le haftLen
      have hrest1Mem : ∀ y ∈ rest1, y ∈ lines := by
        intro y hy
        rw [hrest] at hy
        rw [hL]
        rcases List.mem_append.mp hy with hy | hy
        · exact List.mem_append_left _ hy
        · exact List.mem_append_right _ (List.mem_cons_of_mem _ hy)
      have hpe := pairwise_extract (fun a b => LinkFree_symm) l₁ l₂ aft (by rw [← hL]; exact hpw)
      have hpwRest1 : List.Pairwise LinkFree rest1 := by rw [hrest]; exact hpe.1
      have haftRest1 : ∀ y ∈ rest1, LinkFree aft y := by
        intro y hy; rw [hrest] at hy; exact hpe.2 y hy
      constructor
      · intro l hl
        rcases List.mem_cons.mp hl with hl | hl
        · subst hl; rw [List.length_cons]; omega
        · exact hlen _ (hrest1Mem _ hl)
      · rw [List.pairwise_cons]
        refine ⟨?_, hpwRest1⟩
        intro y hy _ hopY
        constructor
        · rw [getLast?_cons_of_ne_nil haftNe]
          exact (haftRest1 y hy haftOpen hopY).1
        · rw [List.head?_cons]
          exact fun hc => endMatch_false (hnoEnd y (hrest1Mem _ hy)) hopY hc
    | none =>
      dsimp only
      have hnoStart := extractFirst_none _ hs
      constructor
      · intro l hl
        rcases List.mem_append.mp hl with hl | hl
        · exact hlen _ hl
        · rw [List.mem_singleton.mp hl]; rfl
      · rw [List.pairwise_append]
        refine ⟨hpw, List.pairwise_singleton _ _, ?_⟩
        intro a ha b hb
        rw [List.mem_singleton.mp hb]
        intro hopA _
        constructor
        · rw [List.head?_cons]
          exact fun hc => endMatch_false (hnoEnd a ha) hopA hc
        · rw [show ([v0, v1] : List Point).getLast? = some v1 from rfl]
          exact fun hc => startMatch_false (hnoStart a ha) hopA hc.symm
      

/-- Concrete witness for C7: the invariant is preserved when collecting a
segment into the empty set. -/
theorem C7_assembler_invariant_witness :
    AssemblerInv (collectSeg ((0 : ℚ), (0 : ℚ)) ((1 : ℚ), (1 : ℚ)) []) :=
  C7_assembler_invariant ((0 : ℚ), (0 : ℚ)) ((1 : ℚ), (1 : ℚ)) []
    ⟨by intro l hl; simp at hl, List.Pairwise.nil⟩

/-! ### Assembling a closed loop (C8) -/

theorem head?_ne_getLast?_of_nodup {L : List Point} (hnd : L.Nodup)
    (h2 : 2 ≤ L.length) : L.head? ≠ L.getLast? := by
  cases L with
  | nil => simp at h2
  | cons x xs =>
    cases hxs : xs with
    | nil => subst hxs; simp at h2
    | cons y ys =>
      subst hxs
      rw [List.head?_cons, List.getLast?_eq_getLast _ (List.cons_ne_nil _ _)]
      rw [List.getLast_cons (List.cons_ne_nil y ys)]
      intro hc
      have heq : x = (y :: ys).getLast (List.cons_ne_nil y ys) := Option.some.inj hc
      have hmem : (y :: ys).getLast (List.cons_ne_nil y ys) ∈ y :: ys :=
        List.getLast_mem _
      rw [← heq] at hmem
      exact (List.nodup_cons.mp hnd).1 hmem

theorem is_closed_false_of_ne {L : List Point} (h : L.head? ≠ L.getLast?) :
    is_closed L = false := by
  rw [is_closed, decide_eq_false h, Bool.and_false]

theorem is_closed_false_of_nodup {L : List Point} (hnd : L.Nodup)
    (h2 : 2 ≤ L.length) : is_closed L = false :=
  is_closed_false_of_ne (head?_ne_getLast?_of_nodup hnd h2)

theorem collectSeg_single_push {L : List Point} {mk q : Point}
    (hlast : L.getLast? = some mk) (hop : is_closed L = false) :
    collectSeg mk q [L] = [L ++ [q]] := by
  rw [collectSeg]
  have hmatch : endMatch mk L = true := by
    rw [endMatch, hlast, hop]; simp
  have hex : extractFirst (endMatch mk) [L] = some (L, []) := by
    simp [extractFirst, hmatch]
  rw [hex]
  dsimp only
  by_cases hh : L.head? = some q
  · rw [if_pos hh]
  · rw [if_neg hh]
    rfl

theorem collectSeg_single_prepend {L : List Point} {p v1 : Point}
    (hnoend : L.getLast? ≠ some p) (hop : is_closed L = false)
    (hh : L.head? = some v1) :
    collectSeg p v1 [L] = [p :: L] := by
  rw [collectSeg]
  have hmatch : endMatch p L = false := by
    rw [endMatch, hop]
    simp [hnoend]
  have hex : extractFirst (endMatch p) [L] = none := by
    simp [extractFirst, hmatch]
  rw [hex]
  dsimp only
  have hsm : startMatch v1 L = true := by
    rw [startMatch, hh, hop]; simp
  have hex2 : extractFirst (startMatch v1) [L] = some (L, []) := by
    simp [extractFirst, hsm]
  rw [hex2]

theorem mem_of_getLast?_eq {α : Type} {L : List α} {x : α}
    (h : L.getLast? = some x) : x ∈ L := by
  obtain ⟨hne, hx⟩ := List.mem_getLast?_eq_getLast (show x ∈ L.getLast? from by
    rw [h]; rfl)
  rw [hx]
  exact List.getLast_mem hne

theorem collectFold_chain :
    ∀ (rest : List Point) (L : List Point) (mk : Point),
      L.getLast? = some mk → 2 ≤ L.length → (L ++ rest).Nodup →
      collectFold (chainSegs (mk :: rest)) [L] = [L ++ rest] := by
  intro rest
  induction rest with
  | nil =>
    intro L mk _ _ _
    simp [chainSegs, collectFold]
  | cons q rest2 ih =>
    intro L mk hlast h2 hnd
    have hndL : L.Nodup := List.Nodup.of_append_left hnd
    have hop : is_closed L = false := is_closed_false_of_nodup hndL h2
    have hstep : collectSeg mk q [L] = [L ++ [q]] := collectSeg_single_push hlast hop
    rw [show chainSegs (mk :: q :: rest2) = (mk, q) :: chainSegs (q :: rest2) from rfl]
    rw [collectFold, List.foldl_cons]
    dsimp only
    rw [hstep]
    have h1 : (L ++ [q]).getLast? = some q := List.getLast?_concat _
    have h2b : 2 ≤ (L ++ [q]).length := by rw [List.length_append]; omega
    have hnd2 : ((L ++ [q]) ++ rest2).Nodup := by
      rw [List.append_assoc]
      simpa using hnd
    have hih := ih (L ++ [q]) q h1 h2b hnd2
    rw [collectFold] at hih
    rw [hih, List.append_assoc]
    rfl

theorem collectFold_loop (m : List Point) (h2 : 2 ≤ m.length) (hnd : m.Nodup) :
    collectFold (loopSegs m) [] = [m ++ [m.headI]] := by
  match m, h2 with
  | p :: q :: rs, _ =>
    have hne : (p :: q :: rs) ≠ [] := List.cons_ne_nil _ _
    rw [loopSegs, collectFold, List.foldl_append]
    have hinner : List.foldl (fun (st : List (List Point)) (s : Seg) => collectSeg s.1 s.2 st)
        [] (chainSegs (p :: q :: rs)) = [p :: q :: rs] := by
      rw [show chainSegs (p :: q :: rs) = (p, q) :: chainSegs (q :: rs) from rfl]
      rw [List.foldl_cons]
      dsimp only
      rw [show collectSeg p q [] = [[p, q]] from rfl]
      have hchain := collectFold_chain rs [p, q] q rfl (by simp) (by simpa using hnd)
      rw [collectFold] at hchain
      rw [hchain]
      rfl
    rw [hinner, List.foldl_cons, List.foldl_nil]
    dsimp only
    have hlast : (p :: q :: rs).getLast? = some ((p :: q :: rs).getLast hne) :=
      List.getLast?_eq_getLast _ hne
    have hop : is_closed (p :: q :: rs) = false := is_closed_false_of_nodup hnd (by simp)
    rw [collectSeg_single_push hlast hop]
    rfl

theorem collectFold_chain_rev :
    ∀ (pref : List Point) (L : List Point) (mj : Point),
      L.head? = some mj → 2 ≤ L.length → (pref ++ L).Nodup →
      collectFold ((chainSegs (pref ++ [mj])).reverse) [L] = [pref ++ L] := by
  intro pref
  induction pref with
  | nil =>
    intro L mj _ _ _
    simp [chainSegs, collectFold]
  | cons p pref2 ih =>
    intro L mj hh h2 hnd
    have hndL : L.Nodup := List.Nodup.of_append_right hnd
    have hop : is_closed L = false := is_closed_false_of_nodup hndL h2
    have hpnotin : p ∉ pref2 ++ L := (List.nodup_cons.mp (by simpa using hnd)).1
    have hndrest : (pref2 ++ L).Nodup := (List.nodup_cons.mp (by simpa using hnd)).2
    cases pref2 with
    | nil =>
      have hnoend : L.getLast? ≠ some p := by
        intro hc
        apply hpnotin
        rw [List.nil_append]
        exact mem_of_getLast?_eq hc
      rw [show (([p] ++ [mj] : List Point)) = [p, mj] from rfl]
      rw [show chainSegs [p, mj] = [(p, mj)] from rfl]
      rw [show ([(p, mj)] : List Seg).reverse = [(p, mj)] from rfl]
      rw [collectFold, List.foldl_cons, List.foldl_nil]
      dsimp only
      rw [collectSeg_single_prepend hnoend hop hh]
      rfl
    | cons p2 pref3 =>
      rw [show ((p :: p2 :: pref3) ++ [mj] : List Point) =
        p :: ((p2 :: pref3) ++ [mj]) from rfl]
      rw [show chainSegs (p :: ((p2 :: pref3) ++ [mj])) =
        (p, p2) :: chainSegs ((p2 :: pref3) ++ [mj]) from rfl]
      rw [List.reverse_cons]
      rw [collectFold, List.foldl_append]
      have hih := ih L mj hh h2 (by simpa using hndrest)
      rw [collectFold] at hih
      rw [hih, List.foldl_cons, List.foldl_nil]
      dsimp only
      have hline_ne : ((p2 :: pref3) ++ L : List Point) ≠ [] := by simp
      have hHead : ((p2 :: pref3) ++ L : List Point).head? = some p2 := rfl
      have hlenline : 2 ≤ ((p2 :: pref3) ++ L : List Point).length := by
        rw [List.length_append]; omega
      have hopline : is_closed ((p2 :: pref3) ++ L) = false :=
        is_closed_false_of_nodup hndrest hlenline
      have hnoend : ((p2 :: pref3) ++ L : List Point).getLast? ≠ some p := by
        intro hc
        exact hpnotin (mem_of_getLast?_eq hc)
      rw [collectSeg_single_prepend hnoend hopline hHead]
      rfl

theorem collectFold_loop_rev (m : List Point) (h2 : 2 ≤ m.length) (hnd : m.Nodup) :
    collectFold ((loopSegs m).reverse) [] =
      [(m.tail ++ [m.headI]) ++ [m.tail.headI]] := by
  match m, h2 with
  | p :: q :: rs, _ =>
    have hne : (p :: q :: rs) ≠ [] := List.cons_ne_nil _ _
    have htne : (q :: rs) ≠ [] := List.cons_ne_nil _ _
    have hgl2 : (q :: rs).getLast htne = (p :: q :: rs).getLast hne :=
      (List.getLast_cons htne).symm
    rw [loopSegs, List.reverse_append]
    rw [show ([((p :: q :: rs).getLast hne, p)] : List Seg).reverse =
      [((p :: q :: rs).getLast hne, p)] from rfl]
    rw [List.singleton_append, collectFold, List.foldl_cons]
    dsimp only
    rw [show collectSeg ((p :: q :: rs).getLast hne) p [] =
      [[(p :: q :: rs).getLast hne, p]] from rfl]
    have hsplitT : (q :: rs).dropLast ++ [(p :: q :: rs).getLast hne] = q :: rs := by
      rw [← hgl2]
      exact List.dropLast_append_getLast htne
    have hndTP : ((q :: rs).dropLast ++ [(p :: q :: rs).getLast hne, p]).Nodup := by
      have h1 : ((q :: rs).dropLast ++ [(p :: q :: rs).getLast hne, p] : List Point) =
          ((q :: rs).dropLast ++ [(p :: q :: rs).getLast hne]) ++ [p] := by simp
      rw [h1, hsplitT]
      exact (List.perm_append_singleton _ _).nodup_iff.mpr hnd
    have hchain := collectFold_chain_rev ((q :: rs).dropLast)
      [(p :: q :: rs).getLast hne, p] ((p :: q :: rs).getLast hne) rfl
      (by rw [List.length_cons, List.length_cons, List.length_nil]) hndTP
    rw [collectFold] at hchain
    rw [show chainSegs (p :: q :: rs) =
      (p, q) :: chainSegs (q :: rs) from rfl]
    rw [List.reverse_cons, List.foldl_append]
    rw [show chainSegs (q :: rs) =
      chainSegs ((q :: rs).dropLast ++ [(p :: q :: rs).getLast hne]) from by rw [hsplitT]]
    rw [hchain]
    rw [List.foldl_cons, List.foldl_nil]
    dsimp only
    have hline : ((q :: rs).dropLast ++ [(p :: q :: rs).getLast hne, p] : List Point) =
        (q :: rs) ++ [p] := by
      have h1 : ((q :: rs).dropLast ++ [(p :: q :: rs).getLast hne, p] : List Point) =
          ((q :: rs).dropLast ++ [(p :: q :: rs).getLast hne]) ++ [p] := by simp
      rw [h1, hsplitT]
    rw [hline]
    have hlast : ((q :: rs) ++ [p] : List Point).getLast? = some p := List.getLast?_concat _
    have hop : is_closed ((q :: rs) ++ [p]) = false := by
      apply is_closed_false_of_nodup
      · exact (List.perm_append_singleton _ _).nodup_iff.mpr hnd
      · rw [List.length_append]; simp
    rw [collectSeg_single_push hlast hop]
    rfl

/-- C8: feeding the segments of a closed loop of distinct vertices to the
collector on an empty set — in any rotation of the stream order, and likewise
that rotated stream reversed — yields exactly one polyline, which is closed
(head = tail) and has the same point set as the loop. -/
theorem C8_loop_rotation_reversal (l : List Point) (r : ℕ)
    (h2 : 2 ≤ l.length) (hnd : l.Nodup) :
    ((collectFold (loopSegs (l.rotate r)) []).length = 1 ∧
      is_closed ((collectFold (loopSegs (l.rotate r)) []).headI) = true ∧
      (∀ p : Point, p ∈ (collectFold (loopSegs (l.rotate r)) []).headI ↔ p ∈ l)) ∧
    ((collectFold ((loopSegs (l.rotate r)).reverse) []).length = 1 ∧
      is_closed ((collectFold ((loopSegs (l.rotate r)).reverse) []).headI) = true ∧
      (∀ p : Point, p ∈ (collectFold ((loopSegs (l.rotate r)).reverse) []).headI ↔ p ∈ l)) := by
  set m := l.rotate r with hm
  have hm2 : 2 ≤ m.length := by rw [hm, List.length_rotate]; exact h2
  have hmnd : m.Nodup := by rw [hm]; exact List.nodup_rotate.mpr hnd
  have hmem : ∀ p : Point, p ∈ m ↔ p ∈ l := by
    intro p; rw [hm]; exact List.mem_rotate
  obtain ⟨p0, tail, hm0⟩ := List.exists_cons_of_ne_nil (ne_nil_of_two_le hm2)
  obtain ⟨q0, rs0, ht0⟩ := List.exists_cons_of_ne_nil (show tail ≠ [] from by
    intro he
    rw [hm0, he] at hm2
    simp at hm2)
  constructor
  · rw [collectFold_loop m hm2 hmnd]
    refine ⟨rfl, ?_, ?_⟩
    · rw [show ([m ++ [m.headI]] : List (List Point)).headI = m ++ [m.headI] from rfl]
      rw [is_closed, Bool.and_eq_true, decide_eq_true_eq, decide_eq_true_eq]
      constructor
      · rw [List.length_append, hm0]; simp
      · rw [List.getLast?_concat, head?_append_left _ (by rw [hm0]; exact List.cons_ne_nil _ _)]
        rw [hm0]; rfl
    · intro p
      rw [show ([m ++ [m.headI]] : List (List Point)).headI = m ++ [m.headI] from rfl]
      rw [← hmem p]
      constructor
      · intro hp
        rcases List.mem_append.mp hp with hp | hp
        · exact hp
        · rw [List.mem_singleton.mp hp, hm0]; exact List.mem_cons_self _ _
      · exact fun hp => List.mem_append_left _ hp
  · rw [collectFold_loop_rev m hm2 hmnd]
    refine ⟨rfl, ?_, ?_⟩
    · rw [show ([(m.tail ++ [m.headI]) ++ [m.tail.headI]] : List (List Point)).headI =
        (m.tail ++ [m.headI]) ++ [m.tail.headI] from rfl]
      rw [is_closed, Bool.and_eq_true, decide_eq_true_eq, decide_eq_true_eq]
      constructor
      · rw [List.length_append, List.length_append, hm0, ht0]; simp
      · rw [List.getLast?_concat]
        rw [head?_append_left _ (by rw [hm0, ht0]; simp)]
        rw [head?_append_left _ (by rw [hm0, ht0]; exact List.cons_ne_nil _ _)]
        rw [hm0, ht0]; rfl
    · intro p
      rw [show ([(m.tail ++ [m.headI]) ++ [m.tail.headI]] : List (List Point)).headI =
        (m.tail ++ [m.headI]) ++ [m.tail.headI] from rfl]
      rw [← hmem p, hm0, ht0]
      constructor
      · intro hp
        rcases List.mem_append.mp hp with hp | hp
        · rcases List.mem_append.mp hp with hp | hp
          · exact List.mem_cons_of_mem _ hp
          · rw [List.mem_singleton.mp hp]; exact List.mem_cons_self _ _
        · rw [List.mem_singleton.mp hp]
          exact List.mem_cons_of_mem _ (List.mem_cons_self _ _)
      · intro hp
        rcases List.mem_cons.mp hp with hp | hp
        · subst hp
          exact List.mem_append_left _ (List.mem_append_right _ (List.mem_singleton.mpr rfl))
        · exact List.mem_append_left _ (List.mem_append_left _ hp)

/-- Concrete witness for C8: a triangle loop, rotated by one. -/
theorem C8_loop_rotation_reversal_witness :
    ((collectFold (loopSegs (([((0 : ℚ), (0 : ℚ)), (1, 0), (0, 1)] : List Point).rotate 1)) []).length = 1 ∧
      is_closed ((collectFold (loopSegs (([((0 : ℚ), (0 : ℚ)), (1, 0), (0, 1)] : List Point).rotate 1)) []).headI) = true ∧
      (∀ p : Point,
        p ∈ (collectFold (loopSegs (([((0 : ℚ), (0 : ℚ)), (1, 0), (0, 1)] : List Point).rotate 1)) []).headI ↔
          p ∈ ([((0 : ℚ), (0 : ℚ)), (1, 0), (0, 1)] : List Point))) ∧
    ((collectFold ((loopSegs (([((0 : ℚ), (0 : ℚ)), (1, 0), (0, 1)] : List Point).rotate 1)).reverse) []).length = 1 ∧
      is_closed ((collectFold ((loopSegs (([((0 : ℚ), (0 : ℚ)), (1, 0), (0, 1)] : List Point).rotate 1)).reverse) []).headI) = true ∧
      (∀ p : Point,
        p ∈ (collectFold ((loopSegs (([((0 : ℚ), (0 : ℚ)), (1, 0), (0, 1)] : List Point).rotate 1)).reverse) []).headI ↔
          p ∈ ([((0 : ℚ), (0 : ℚ)), (1, 0), (0, 1)] : List Point))) :=
  C8_loop_rotation_reversal [((0 : ℚ), (0 : ℚ)), (1, 0), (0, 1)] 1 (by decide) (by decide)

/-! ### Lexicographic order and cross-product algebra (C5) -/

theorem lexLeP_refl (p : Point) : lexLeP p p := Or.inr ⟨rfl, le_refl _⟩

theorem lexLeP_antisymm {p q : Point} (h1 : lexLeP p q) (h2 : lexLeP q p) :
    p = q := by
  rcases h1 with h1 | ⟨h1, h1b⟩ <;> rcases h2 with h2 | ⟨h2, h2b⟩
  · exact absurd h2 (lt_asymm h1)
  · exact absurd h1 (by rw [h2]; exact lt_irrefl _)
  · exact absurd h2 (by rw [h1]; exact lt_irrefl _)
  · exact Prod.ext h1 (le_antisymm h1b h2b)

theorem lexLtP_le {p q : Point} (h : lexLtP p q) : lexLeP p q := by
  rcases h with h | ⟨h, hb⟩
  · exact Or.inl h
  · exact Or.inr ⟨h, le_of_lt hb⟩

theorem lexLtP_ne {p q : Point} (h : lexLtP p q) : p ≠ q := by
  intro he
  subst he
  rcases h with h | ⟨_, hb⟩
  · exact lt_irrefl _ h
  · exact lt_irrefl _ hb

theorem lexLtP_of_le_ne {p q : Point} (h : lexLeP p q) (hne : p ≠ q) :
    lexLtP p q := by
  rcases h with h | ⟨h, hb⟩
  · exact Or.inl h
  · rcases lt_or_eq_of_le hb with hb | hb
    · exact Or.inr ⟨h, hb⟩
    · exact absurd (Prod.ext h hb) hne

theorem lexLeP_x {p q : Point} (h : lexLeP p q) : p.1 ≤ q.1 := by
  rcases h with h | ⟨h, _⟩
  · exact le_of_lt h
  · exact le_of_eq h

theorem lexLtP_x {p q : Point} (h : lexLtP p q) : p.1 ≤ q.1 :=
  lexLeP_x (lexLtP_le h)

theorem lexLeP_negP {p q : Point} : lexLeP (negP p) (negP q) ↔ lexLeP q p := by
  unfold lexLeP negP
  constructor
  · rintro (h | ⟨h, hb⟩)
    · exact Or.inl (by dsimp only at h; linarith)
    · exact Or.inr ⟨by dsimp only at h; linarith, by dsimp only at hb; linarith⟩
  · rintro (h | ⟨h, hb⟩)
    · exact Or.inl (by dsimp only; linarith)
    · exact Or.inr ⟨by dsimp only; linarith, by dsimp only; linarith⟩

theorem lexLtP_negP {p q : Point} : lexLtP (negP p) (negP q) ↔ lexLtP q p := by
  unfold lexLtP negP
  constructor
  · rintro (h | ⟨h, hb⟩)
    · exact Or.inl (by dsimp only at h; linarith)
    · exact Or.inr ⟨by dsimp only at h; linarith, by dsimp only at hb; linarith⟩
  · rintro (h | ⟨h, hb⟩)
    · exact Or.inl (by dsimp only; linarith)
    · exact Or.inr ⟨by dsimp only; linarith, by dsimp only; linarith⟩

theorem cross_cyclic (a b c : Point) : cross a b c = cross b c a := by
  simp only [cross]; ring

theorem cross_swap_first (a b c : Point) : cross a b c = -cross b a c := by
  simp only [cross]; ring

theorem cross_negP (a b c : Point) :
    cross (negP a) (negP b) (negP c) = cross a b c := by
  simp only [cross, negP]; ring

theorem distSq_negP (a b : Point) : distSq (negP a) (negP b) = distSq a b := by
  simp only [distSq, negP]; ring

theorem negP_invol (p : Point) : negP (negP p) = p := by
  simp [negP]

theorem cross_expand (p q r s : Point) :
    cross p q s * (r.1 - p.1) =
      cross p q r * (s.1 - p.1) + cross p r s * (q.1 - p.1) := by
  simp only [cross]; ring

theorem det4 (a b c d : Point) :
    cross b c d = cross a c d - cross a b d + cross a b c := by
  simp only [cross]; ring

/-! ### More `consecPairs`/`consecTriples` plumbing (C5) -/

theorem consecPairs_cons (x : Point) (l : List Point) :
    ∀ pr ∈ consecPairs l, pr ∈ consecPairs (x :: l) := by
  intro pr hpr
  cases l with
  | nil => simp [consecPairs] at hpr
  | cons p l2 =>
    cases l2 with
    | nil => simp [consecPairs] at hpr
    | cons q l3 =>
      rw [show consecPairs (x :: p :: q :: l3) =
        (x, p) :: consecPairs (p :: q :: l3) from rfl]
      exact List.mem_cons_of_mem _ hpr

theorem consecPairs_sub_left (r : List Point) :
    ∀ (l : List Point), ∀ pr ∈ consecPairs l, pr ∈ consecPairs (l ++ r) := by
  intro l
  induction l with
  | nil => intro pr hpr; simp [consecPairs] at hpr
  | cons p l2 ih =>
    intro pr hpr
    cases l2 with
    | nil => simp [consecPairs] at hpr
    | cons q l3 =>
      rw [show consecPairs (p :: q :: l3) = (p, q) :: consecPairs (q :: l3) from rfl] at hpr
      rcases List.mem_cons.mp hpr with h | h
      · subst h
        rw [show (p :: q :: l3) ++ r = p :: q :: (l3 ++ r) from rfl]
        rw [show consecPairs (p :: q :: (l3 ++ r)) =
          (p, q) :: consecPairs (q :: (l3 ++ r)) from rfl]
        exact List.mem_cons_self _ _
      · have h2 := ih pr h
        rw [show (p :: q :: l3) ++ r = p :: ((q :: l3) ++ r) from rfl]
        exact consecPairs_cons p _ pr h2

theorem consecPairs_append_cases :
    ∀ (A B : List Point) (pr : Point × Point), pr ∈ consecPairs (A ++ B) →
      pr ∈ consecPairs A ∨ pr ∈ consecPairs B ∨
        (A.getLast? = some pr.1 ∧ B.head? = some pr.2) := by
  intro A
  induction A with
  | nil => intro B pr h; exact Or.inr (Or.inl (by simpa using h))
  | cons a A2 ih =>
    intro B pr h
    cases A2 with
    | nil =>
      cases B with
      | nil => simp [consecPairs] at h
      | cons b B2 =>
        rw [show ([a] ++ (b :: B2) : List Point) = a :: b :: B2 from rfl] at h
        rw [show consecPairs (a :: b :: B2) = (a, b) :: consecPairs (b :: B2) from rfl] at h
        rcases List.mem_cons.mp h with h | h
        · subst h; exact Or.inr (Or.inr ⟨rfl, rfl⟩)
        · exact Or.inr (Or.inl h)
    | cons a2 A3 =>
      rw [show ((a :: a2 :: A3) ++ B : List Point) = a :: ((a2 :: A3) ++ B) from rfl] at h
      have hsh : ((a2 :: A3) ++ B : List Point) = a2 :: (A3 ++ B) := rfl
      rw [hsh] at h
      rw [show consecPairs (a :: a2 :: (A3 ++ B)) =
        (a, a2) :: consecPairs (a2 :: (A3 ++ B)) from rfl] at h
      rcases List.mem_cons.mp h with h | h
      · subst h
        exact Or.inl (List.mem_cons_self _ _)
      · rw [← hsh] at h
        rcases ih B pr h with h | h | h
        · exact Or.inl (consecPairs_cons a _ pr h)
        · exact Or.inr (Or.inl h)
        · refine Or.inr (Or.inr ⟨?_, h.2⟩)
          rw [← h.1]
          rw [List.getLast?_eq_getLast _ (List.cons_ne_nil a2 A3)]
          rw [show (a :: a2 :: A3 : List Point).getLast? =
            some ((a :: a2 :: A3).getLast (List.cons_ne_nil _ _)) from
            List.getLast?_eq_getLast _ _]
          rw [List.getLast_cons (List.cons_ne_nil a2 A3)]

theorem consecTriples_append_cases :
    ∀ (A B : List Point) (t : Point × Point × Point), t ∈ consecTriples (A ++ B) →
      t ∈ consecTriples A ∨ t ∈ consecTriples B ∨
        (A.getLast? = some t.1 ∧ B.head? = some t.2.1 ∧ B.tail.head? = some t.2.2) ∨
        (A.dropLast.getLast? = some t.1 ∧ A.getLast? = some t.2.1 ∧
          B.head? = some t.2.2) := by
  intro A
  induction A with
  | nil => intro B t h; exact Or.inr (Or.inl (by simpa using h))
  | cons a A2 ih =>
    intro B t h
    cases A2 with
    | nil =>
      cases B with
      | nil => simp [consecTriples] at h
      | cons b B2 =>
        cases B2 with
        | nil => simp [consecTriples] at h
        | cons b2 B3 =>
          rw [show ([a] ++ (b :: b2 :: B3) : List Point) = a :: b :: b2 :: B3 from rfl] at h
          rw [show consecTriples (a :: b :: b2 :: B3) =
            (a, b, b2) :: consecTriples (b :: b2 :: B3) from rfl] at h
          rcases List.mem_cons.mp h with h | h
          · subst h; exact Or.inr (Or.inr (Or.inl ⟨rfl, rfl, rfl⟩))
          · exact Or.inr (Or.inl h)
    | cons a2 A3 =>
      have hsh : ((a2 :: A3) ++ B : List Point) = a2 :: (A3 ++ B) := rfl
      rw [show ((a :: a2 :: A3) ++ B : List Point) = a :: ((a2 :: A3) ++ B) from rfl,
        hsh] at h
      cases hAB : A3 ++ B with
      | nil => rw [hAB] at h; simp [consecTriples] at h
      | cons c CB =>
        rw [hAB] at h
        rw [show consecTriples (a :: a2 :: c :: CB) =
          (a, a2, c) :: consecTriples (a2 :: c :: CB) from rfl] at h
        rcases List.mem_cons.mp h with h | h
        · subst h
          cases A3 with
          | nil =>
            rw [List.nil_append] at hAB
            subst hAB
            exact Or.inr (Or.inr (Or.inr ⟨rfl, rfl, rfl⟩))
          | cons a3 A4 =>
            have : a3 = c := by
              have := hAB
              rw [show ((a3 :: A4) ++ B : List Point) = a3 :: (A4 ++ B) from rfl] at this
              exact (List.cons.injEq _ _ _ _).mp this |>.1
            subst this
            exact Or.inl (List.mem_cons_self _ _)
        · rw [← hAB, ← hsh] at h
          rcases ih B t h with h | h | h | h
          · exact Or.inl (consecTriples_cons a _ t h)
          · exact Or.inr (Or.inl h)
          · refine Or.inr (Or.inr (Or.inl ⟨?_, h.2.1, h.2.2⟩))
            rw [← h.1]
            rw [List.getLast?_eq_getLast _ (List.cons_ne_nil a2 A3)]
            rw [show (a :: a2 :: A3 : List Point).getLast? =
              some ((a :: a2 :: A3).getLast (List.cons_ne_nil _ _)) from
              List.getLast?_eq_getLast _ _]
            rw [List.getLast_cons (List.cons_ne_nil a2 A3)]
          · refine Or.inr (Or.inr (Or.inr ⟨?_, ?_, h.2.2⟩))
            · rw [← h.1]
              rw [show (a :: a2 :: A3 : List Point).dropLast = a :: (a2 :: A3).dropLast
                from rfl]
              have hne2 : (a2 :: A3).dropLast ≠ [] := by
                intro hc
                rw [hc] at h
                simp at h
              rw [getLast?_cons_of_ne_nil hne2]
            · rw [← h.2.1]
              rw [List.getLast?_eq_getLast _ (List.cons_ne_nil a2 A3)]
              rw [show (a :: a2 :: A3 : List Point).getLast? =
                some ((a :: a2 :: A3).getLast (List.cons_ne_nil _ _)) from
                List.getLast?_eq_getLast _ _]
              rw [List.getLast_cons (List.cons_ne_nil a2 A3)]

theorem consecPairs_map (f : Point → Point) :
    ∀ (l : List Point),
      consecPairs (l.map f) = (consecPairs l).map (fun pr => (f pr.1, f pr.2)) := by
  intro l
  induction l with
  | nil => rfl
  | cons p l2 ih =>
    cases l2 with
    | nil => rfl
    | cons q l3 =>
      rw [show (p :: q :: l3 : List Point).map f = f p :: f q :: l3.map f from rfl]
      rw [show consecPairs (f p :: f q :: l3.map f) =
        (f p, f q) :: consecPairs (f q :: l3.map f) from rfl]
      rw [show consecPairs (p :: q :: l3) = (p, q) :: consecPairs (q :: l3) from rfl]
      rw [List.map_cons]
      rw [show (q :: l3 : List Point).map f = f q :: l3.map f from rfl] at ih
      rw [ih]

theorem consecTriples_map (f : Point → Point) :
    ∀ (l : List Point),
      consecTriples (l.map f) =
        (consecTriples l).map (fun t => (f t.1, f t.2.1, f t.2.2)) := by
  intro l
  induction l with
  | nil => rfl
  | cons p l2 ih =>
    cases l2 with
    | nil => rfl
    | cons q l3 =>
      cases l3 with
      | nil => rfl
      | cons r l4 =>
        rw [show (p :: q :: r :: l4 : List Point).map f =
          f p :: f q :: f r :: l4.map f from rfl]
        rw [show consecTriples (f p :: f q :: f r :: l4.map f) =
          (f p, f q, f r) :: consecTriples (f q :: f r :: l4.map f) from rfl]
        rw [show consecTriples (p :: q :: r :: l4) =
          (p, q, r) :: consecTriples (q :: r :: l4) from rfl]
        rw [List.map_cons]
        rw [show (q :: r :: l4 : List Point).map f =
          f q :: f r :: l4.map f from rfl] at ih
        rw [ih]

theorem mem_consecPairs_reverse_mp :
    ∀ (l : List Point) (a b : Point),
      (a, b) ∈ consecPairs l.reverse → (b, a) ∈ consecPairs l := by
  intro l
  induction l with
  | nil => intro a b h; simp [consecPairs] at h
  | cons x xs ih =>
    intro a b h
    rw [List.reverse_cons] at h
    rcases consecPairs_append_cases _ _ _ h with h | h | h
    · exact consecPairs_cons x _ _ (ih a b h)
    · simp [consecPairs] at h
    · obtain ⟨h1, h2⟩ := h
      rw [List.getLast?_reverse] at h1
      have hb : b = x := by simpa using h2.symm
      subst hb
      cases xs with
      | nil => simp at h1
      | cons y ys =>
        have ha : a = y := by simpa using h1.symm
        subst ha
        exact List.mem_cons_self _ _

theorem mem_consecPairs_reverse {l : List Point} {a b : Point} :
    (a, b) ∈ consecPairs l.reverse ↔ (b, a) ∈ consecPairs l := by
  constructor
  · exact mem_consecPairs_reverse_mp l a b
  · intro h
    have h2 := mem_consecPairs_reverse_mp l.reverse b a (by rwa [List.reverse_reverse])
    exact h2

theorem mem_consecTriples_reverse_mp :
    ∀ (l : List Point) (a b c : Point),
      (a, b, c) ∈ consecTriples l.reverse → (c, b, a) ∈ consecTriples l := by
  intro l
  induction l with
  | nil => intro a b c h; simp [consecTriples] at h
  | cons x xs ih =>
    intro a b c h
    rw [List.reverse_cons] at h
    rcases consecTriples_append_cases _ _ _ h with h | h | h | h
    · exact consecTriples_cons x _ _ (ih a b c h)
    · simp [consecTriples] at h
    · obtain ⟨h1, h2, h3⟩ := h
      simp at h3
    · obtain ⟨h1, h2, h3⟩ := h
      rw [List.getLast?_reverse] at h2
      have hc : c = x := by simpa using h3.symm
      subst hc
      cases xs with
      | nil => simp at h2
      | cons y ys =>
        have hb : b = y := by simpa using h2.symm
        subst hb
        have hdl : (b :: ys).reverse.dropLast = ys.reverse := by
          rw [List.reverse_cons, List.dropLast_concat]
        rw [hdl, List.getLast?_reverse] at h1
        cases ys with
        | nil => simp at h1
        | cons z zs =>
          have ha : a = z := by simpa using h1.symm
          subst ha
          exact List.mem_cons_self _ _

theorem mem_consecTriples_reverse {l : List Point} {a b c : Point} :
    (a, b, c) ∈ consecTriples l.reverse ↔ (c, b, a) ∈ consecTriples l := by
  constructor
  · exact mem_consecTriples_reverse_mp l a b c
  · intro h
    exact mem_consecTriples_reverse_mp l.reverse c b a (by rwa [List.reverse_reverse])

theorem pair_of_last :
    ∀ (A : List Point) (y tl : Point), A.getLast? = some y →
      (y, tl) ∈ consecPairs (A ++ [tl]) := by
  intro A
  induction A with
  | nil => intro y tl h; simp at h
  | cons a A2 ih =>
    intro y tl h
    cases A2 with
    | nil =>
      have hy : y = a := by simpa using h.symm
      subst hy
      exact List.mem_cons_self _ _
    | cons a2 A3 =>
      rw [getLast?_cons_of_ne_nil (List.cons_ne_nil a2 A3)] at h
      have h2 := ih y tl h
      rw [show ((a :: a2 :: A3) ++ [tl] : List Point) = a :: ((a2 :: A3) ++ [tl]) from rfl]
      exact consecPairs_cons a _ _ h2

theorem triple_of_last :
    ∀ (A : List Point) (z y tl : Point), A.dropLast.getLast? = some z →
      A.getLast? = some y → (z, y, tl) ∈ consecTriples (A ++ [tl]) := by
  intro A
  induction A with
  | nil => intro z y tl h1 _; simp at h1
  | cons a A2 ih =>
    intro z y tl h1 h2
    cases A2 with
    | nil => simp at h1
    | cons a2 A3 =>
      cases A3 with
      | nil =>
        have hz : z = a := by simpa using h1.symm
        have hy : y = a2 := by simpa using h2.symm
        subst hz; subst hy
        exact List.mem_cons_self _ _
      | cons a3 A4 =>
        have hd : (a :: a2 :: a3 :: A4 : List Point).dropLast =
            a :: (a2 :: a3 :: A4).dropLast := rfl
        rw [hd] at h1
        have hne2 : (a2 :: a3 :: A4 : List Point).dropLast ≠ [] := by
          rw [show (a2 :: a3 :: A4 : List Point).dropLast =
            a2 :: (a3 :: A4).dropLast from rfl]
          exact List.cons_ne_nil _ _
        rw [getLast?_cons_of_ne_nil hne2] at h1
        rw [getLast?_cons_of_ne_nil (List.cons_ne_nil a2 (a3 :: A4))] at h2
        have h3 := ih z y tl h1 h2
        rw [show ((a :: a2 :: a3 :: A4) ++ [tl] : List Point) =
          a :: ((a2 :: a3 :: A4) ++ [tl]) from rfl]
        exact consecTriples_cons a _ _ h3

theorem pairs_pairwise {R : Point → Point → Prop} :
    ∀ (l : List Point), List.Pairwise R l → ∀ pr ∈ consecPairs l, R pr.1 pr.2 := by
  intro l
  induction l with
  | nil => intro _ pr hpr; simp [consecPairs] at hpr
  | cons p l2 ih =>
    intro hpw pr hpr
    cases l2 with
    | nil => simp [consecPairs] at hpr
    | cons q l3 =>
      rw [show consecPairs (p :: q :: l3) = (p, q) :: consecPairs (q :: l3) from rfl] at hpr
      rcases List.mem_cons.mp hpr with h | h
      · subst h
        exact (List.pairwise_cons.mp hpw).1 q (List.mem_cons_self _ _)
      · exact ih (List.pairwise_cons.mp hpw).2 pr h

theorem head?_dropLast {l : List Point} (h : 2 ≤ l.length) :
    l.dropLast.head? = l.head? := by
  cases l with
  | nil => simp at h
  | cons a l2 =>
    cases l2 with
    | nil => simp at h
    | cons b l3 => rfl

/-! ### Negation symmetry and sortedness facts (C5) -/

theorem scanStep_negP (tolSq : ℚ) (p : Point) :
    ∀ (σ : List Point),
      scanStep tolSq (negP p) (σ.map negP) = (scanStep tolSq p σ).map negP := by
  intro σ
  induction σ with
  | nil => rfl
  | cons b tail ih =>
    cases tail with
    | nil => rfl
    | cons a rest =>
      rw [show ((b :: a :: rest : List Point).map negP) =
        negP b :: negP a :: rest.map negP from rfl]
      rw [show scanStep tolSq (negP p) (negP b :: negP a :: rest.map negP) =
        if cross (negP a) (negP b) (negP p) ≤ 0 ∨
            (cross (negP a) (negP b) (negP p)) ^ 2 ≤ tolSq * distSq (negP a) (negP p) then
          scanStep tolSq (negP p) (negP a :: rest.map negP)
        else negP p :: negP b :: negP a :: rest.map negP from rfl]
      rw [show scanStep tolSq p (b :: a :: rest) =
        if cross a b p ≤ 0 ∨ (cross a b p) ^ 2 ≤ tolSq * distSq a p then
          scanStep tolSq p (a :: rest)
        else p :: b :: a :: rest from rfl]
      rw [cross_negP, distSq_negP]
      by_cases hc : cross a b p ≤ 0 ∨ (cross a b p) ^ 2 ≤ tolSq * distSq a p
      · rw [if_pos hc, if_pos hc]
        rw [show ((a :: rest : List Point).map negP) = negP a :: rest.map negP from rfl] at ih
        exact ih
      · rw [if_neg hc, if_neg hc]
        rfl

theorem foldl_scan_negP (tolSq : ℚ) :
    ∀ (l σ : List Point),
      List.foldl (fun acc p => scanStep tolSq p acc) (σ.map negP) (l.map negP) =
        (List.foldl (fun acc p => scanStep tolSq p acc) σ l).map negP := by
  intro l
  induction l with
  | nil => intro σ; rfl
  | cons p l2 ih =>
    intro σ
    rw [List.map_cons, List.foldl_cons, List.foldl_cons]
    rw [scanStep_negP]
    exact ih _

theorem buildChain_negP (tolSq : ℚ) (l : List Point) :
    buildChain tolSq (l.map negP) = (buildChain tolSq l).map negP := by
  rw [buildChain, buildChain]
  rw [show (List.map negP l).foldl (fun acc p => scanStep tolSq p acc) [] =
    List.foldl (fun acc p => scanStep tolSq p acc) (([] : List Point).map negP)
      (l.map negP) from rfl]
  rw [foldl_scan_negP]
  rw [List.map_reverse]

theorem map_negP_negP (l : List Point) : (l.map negP).map negP = l := by
  rw [List.map_map]
  have : (negP ∘ negP) = id := by
    funext p
    exact negP_invol p
  rw [this, List.map_id]

theorem sortLex_pairwise (pts : List Point) (hnd : pts.Nodup) :
    List.Pairwise lexLtP (sortLex pts) := by
  have hs : List.Pairwise lexLeP (sortLex pts) := List.sorted_insertionSort lexLeP pts
  have hperm : (sortLex pts).Perm pts := List.perm_insertionSort lexLeP pts
  have hnd2 : (sortLex pts).Nodup := hperm.nodup_iff.mpr hnd
  have hand := List.Pairwise.and hs hnd2
  exact hand.imp (fun h => lexLtP_of_le_ne h.1 h.2)

theorem sortLex_mem {pts : List Point} {p : Point} :
    p ∈ sortLex pts ↔ p ∈ pts :=
  (List.perm_insertionSort lexLeP pts).mem_iff

/-! ### The scan invariant (C5) -/

theorem vertical_top_x {a b x : Point} (habe : a.1 = b.1) (haby : a.2 < b.2)
    (h : 0 ≤ cross a b x) : x.1 ≤ a.1 := by
  simp only [cross] at h
  rw [habe]
  rw [habe] at h
  nlinarith [h, haby]

theorem lexLeP_total_not {p q : Point} (h : ¬ lexLeP p q) : lexLtP q p := by
  unfold lexLeP at h
  push_neg at h
  obtain ⟨h1, h2⟩ := h
  rcases lt_or_eq_of_le h1 with hlt | heq
  · exact Or.inl hlt
  · exact Or.inr ⟨heq, h2 heq.symm⟩

theorem star_pop (a b x : Point) (P : List Point)
    (hab : lexLtP a b) (hax1 : a.1 ≤ x.1)
    (hEab : ∀ q ∈ P, 0 ≤ cross a b q)
    (hpop : cross a b x ≤ 0) :
    ∀ q ∈ P, lexLeP a q → 0 ≤ cross a x q := by
  intro q hq hla
  rcases hla with h | ⟨hx1, hy⟩
  · rcases hab with habx | ⟨habe, haby⟩
    · have hid := cross_expand a b q x
      have h2 : cross a q x ≤ 0 := by
        nlinarith [hid, hEab q hq, hax1, hpop, h, habx]
      have h3 : cross a x q = -cross a q x := cross_swap a x q
      linarith [h2, h3]
    · have hqa1 : q.1 ≤ a.1 := vertical_top_x habe haby (hEab q hq)
      linarith [h, hqa1]
  · simp only [cross]
    rw [← hx1]
    nlinarith [mul_nonneg (sub_nonneg.mpr hax1) (sub_nonneg.mpr hy)]

theorem descend (x : Point) :
    ∀ (σ : List Point),
      List.Pairwise (fun u v => lexLtP v u) σ →
      (∀ y ∈ σ, lexLtP y x) →
      (∀ t ∈ consecTriples σ, 0 < cross t.2.2 t.2.1 t.1) →
      (∀ b2 a2 rest2, σ = b2 :: a2 :: rest2 → 0 ≤ cross a2 b2 x) →
      ∀ pr ∈ consecPairs σ, 0 ≤ cross pr.2 pr.1 x := by
  intro σ
  induction σ with
  | nil =>
    intro _ _ _ _ pr hpr
    rw [show consecPairs [] = [] from rfl] at hpr
    exact absurd hpr (List.not_mem_nil pr)
  | cons b tail ih =>
    intro hpw hlt hD htop pr hpr
    cases tail with
    | nil =>
      rw [show consecPairs [b] = [] from rfl] at hpr
      exact absurd hpr (List.not_mem_nil pr)
    | cons a rest =>
      rw [show consecPairs (b :: a :: rest) = (b, a) :: consecPairs (a :: rest)
        from rfl] at hpr
      rcases List.mem_cons.mp hpr with hpr | hpr
      · rw [hpr]
        exact htop b a rest rfl
      · apply ih (List.pairwise_cons.mp hpw).2
          (fun y hy => hlt y (List.mem_cons_of_mem b hy))
          (fun t ht => hD t (consecTriples_cons b _ t ht)) ?_ pr hpr
        intro b2 a2 rest2 heq
        injection heq with h1 h2
        subst h1
        subst h2
        have htriple : 0 < cross a2 a b := hD (b, a, a2) (List.mem_cons_self _ _)
        have htopba : 0 ≤ cross a b x := htop b a _ rfl
        have hax : lexLtP a x := hlt a (List.mem_cons_of_mem b (List.mem_cons_self _ _))
        have hab : lexLtP a b := (List.pairwise_cons.mp hpw).1 a (List.mem_cons_self _ _)
        have ha2a : lexLtP a2 a :=
          (List.pairwise_cons.mp (List.pairwise_cons.mp hpw).2).1 a2 (List.mem_cons_self _ _)
        have ha2a1 : a2.1 ≤ a.1 := lexLtP_x ha2a
        have hax1 : a.1 ≤ x.1 := lexLtP_x hax
        rcases hab with hvert | ⟨habe, haby⟩
        · have hid := cross_expand a a2 b x
          have h1 : cross a a2 b = -cross a2 a b := cross_swap_first a a2 b
          rw [h1] at hid
          have h6 : cross a a2 x ≤ 0 := by
            nlinarith [hid, htriple, hax1, htopba, ha2a1, hvert]
          have h7 : cross a2 a x = -cross a a2 x := cross_swap_first a2 a x
          linarith [h6, h7]
        · have hx1 : x.1 ≤ a.1 := vertical_top_x habe haby htopba
          have hx1e : x.1 = a.1 := le_antisymm hx1 hax1
          have hbx : lexLtP b x := hlt b (List.mem_cons_self _ _)
          have hbx2 : b.2 < x.2 := by
            rcases hbx with h | ⟨_, h⟩
            · rw [hx1e] at h
              rw [habe] at h
              exact absurd h (lt_irrefl _)
            · exact h
          simp only [cross]
          rw [hx1e]
          nlinarith [mul_nonneg (sub_nonneg.mpr ha2a1)
            (by linarith [haby, hbx2] : (0:ℚ) ≤ x.2 - a.2)]

theorem StackInv_tail {P : List Point} {b a : Point} {rest : List Point}
    (h : StackInv P (b :: a :: rest)) : StackInv P (a :: rest) := by
  obtain ⟨_, hmem, hpw, hD, hE, hbot⟩ := h
  refine ⟨List.cons_ne_nil _ _, ?_, ?_, ?_, ?_, ?_⟩
  · intro y hy
    exact hmem y (List.mem_cons_of_mem b hy)
  · exact (List.pairwise_cons.mp hpw).2
  · intro t ht
    exact hD t (consecTriples_cons b _ t ht)
  · intro pr hpr q hq
    exact hE pr (consecPairs_cons b _ pr hpr) q hq
  · intro bt hbt q hq
    apply hbot bt ?_ q hq
    rw [List.getLast?_cons_cons]
    exact hbt

theorem scanStep_aux (x : Point) (P : List Point)
    (hlt : ∀ q ∈ P, lexLtP q x) :
    ∀ (σ : List Point),
      StackInv P σ →
      (∀ tp, σ.head? = some tp → ∀ q ∈ P, lexLeP tp q → 0 ≤ cross tp x q) →
      StackInv (P ++ [x]) (scanStep 0 x σ) ∧ TopMax (P ++ [x]) (scanStep 0 x σ) := by
  intro σ
  induction σ with
  | nil =>
    intro hSI _
    exact absurd rfl hSI.1
  | cons b tail ih =>
    intro hSI hstar
    obtain ⟨hne, hmem, hpw, hD, hE, hbot⟩ := hSI
    cases tail with
    | nil =>
      rw [show scanStep 0 x [b] = [x, b] from rfl]
      have hbP : b ∈ P := hmem b (List.mem_cons_self _ _)
      have hbx : lexLtP b x := hlt b hbP
      refine ⟨⟨List.cons_ne_nil _ _, ?_, ?_, ?_, ?_, ?_⟩, ?_⟩
      · intro y hy
        rcases List.mem_cons.mp hy with hy | hy
        · subst hy
          exact List.mem_append.mpr (Or.inr (List.mem_singleton.mpr rfl))
        · rw [List.mem_singleton.mp hy]
          exact List.mem_append.mpr (Or.inl hbP)
      · rw [List.pairwise_cons]
        refine ⟨?_, List.pairwise_singleton _ _⟩
        intro y hy
        rw [List.mem_singleton.mp hy]
        exact hbx
      · intro t ht
        rw [show consecTriples [x, b] = [] from rfl] at ht
        exact absurd ht (List.not_mem_nil t)
      · intro pr hpr q hq
        rw [show consecPairs [x, b] = [(x, b)] from rfl] at hpr
        rw [List.mem_singleton.mp hpr]
        dsimp only
        rcases List.mem_append.mp hq with hq | hq
        · exact hstar b rfl q hq (hbot b (List.getLast?_singleton b) q hq)
        · rw [List.mem_singleton.mp hq]
          rw [cross_right]
      · intro bt hbt q hq
        have hbtb : bt = b := by
          rw [List.getLast?_cons_cons, List.getLast?_singleton] at hbt
          exact (Option.some.inj hbt).symm
        subst hbtb
        rcases List.mem_append.mp hq with hq | hq
        · exact hbot bt (List.getLast?_singleton bt) q hq
        · rw [List.mem_singleton.mp hq]
          exact lexLtP_le hbx
      · intro tp htp q hq
        have htpx : tp = x := by
          rw [List.head?_cons] at htp
          exact (Option.some.inj htp).symm
        subst htpx
        rcases List.mem_append.mp hq with hq | hq
        · exact lexLtP_le (hlt q hq)
        · rw [List.mem_singleton.mp hq]
          exact lexLeP_refl tp
    | cons a rest =>
      by_cases hpop : cross a b x ≤ 0
      · have hstep : scanStep 0 x (b :: a :: rest) = scanStep 0 x (a :: rest) := by
          rw [show scanStep 0 x (b :: a :: rest) =
            if cross a b x ≤ 0 ∨ (cross a b x) ^ 2 ≤ 0 * distSq a x then
              scanStep 0 x (a :: rest) else x :: b :: a :: rest from rfl]
          rw [if_pos (Or.inl hpop)]
        rw [hstep]
        apply ih (StackInv_tail ⟨hne, hmem, hpw, hD, hE, hbot⟩)
        intro tp htp q hq hla
        have htpa : tp = a := by
          rw [List.head?_cons] at htp
          exact (Option.some.inj htp).symm
        subst htpa
        have htpP : tp ∈ P := hmem tp (List.mem_cons_of_mem b (List.mem_cons_self _ _))
        have htpx1 : tp.1 ≤ x.1 := lexLtP_x (hlt tp htpP)
        have hab : lexLtP tp b := (List.pairwise_cons.mp hpw).1 tp (List.mem_cons_self _ _)
        have hEab : ∀ q2 ∈ P, 0 ≤ cross tp b q2 := by
          intro q2 hq2
          exact hE (b, tp) (List.mem_cons_self _ _) q2 hq2
        exact star_pop tp b x P hab htpx1 hEab hpop q hq hla
      · have hxpos : 0 < cross a b x := not_le.mp hpop
        have hcond : ¬(cross a b x ≤ 0 ∨ (cross a b x) ^ 2 ≤ 0 * distSq a x) := by
          rintro (h | h)
          · exact hpop h
          · rw [zero_mul] at h
            have hz := sq_le_zero_eq_zero h
            rw [hz] at hxpos
            exact lt_irrefl _ hxpos
        have hstep : scanStep 0 x (b :: a :: rest) = x :: b :: a :: rest := by
          rw [show scanStep 0 x (b :: a :: rest) =
            if cross a b x ≤ 0 ∨ (cross a b x) ^ 2 ≤ 0 * distSq a x then
              scanStep 0 x (a :: rest) else x :: b :: a :: rest from rfl]
          rw [if_neg hcond]
        rw [hstep]
        have hbP : b ∈ P := hmem b (List.mem_cons_self _ _)
        have haP : a ∈ P := hmem a (List.mem_cons_of_mem b (List.mem_cons_self _ _))
        have hab : lexLtP a b := (List.pairwise_cons.mp hpw).1 a (List.mem_cons_self _ _)
        have hbx : lexLtP b x := hlt b hbP
        have hbx1 : b.1 ≤ x.1 := lexLtP_x hbx
        refine ⟨⟨List.cons_ne_nil _ _, ?_, ?_, ?_, ?_, ?_⟩, ?_⟩
        · intro y hy
          rcases List.mem_cons.mp hy with hy | hy
          · subst hy
            exact List.mem_append.mpr (Or.inr (List.mem_singleton.mpr rfl))
          · exact List.mem_append.mpr (Or.inl (hmem y hy))
        · rw [List.pairwise_cons]
          refine ⟨?_, hpw⟩
          intro y hy
          exact hlt y (hmem y hy)
        · intro t ht
          rw [show consecTriples (x :: b :: a :: rest) =
            (x, b, a) :: consecTriples (b :: a :: rest) from rfl] at ht
          rcases List.mem_cons.mp ht with ht | ht
          · rw [ht]
            exact hxpos
          · exact hD t ht
        · intro pr hpr q hq
          rw [show consecPairs (x :: b :: a :: rest) =
            (x, b) :: consecPairs (b :: a :: rest) from rfl] at hpr
          rcases List.mem_cons.mp hpr with hpr | hpr
          · rw [hpr]
            dsimp only
            rcases List.mem_append.mp hq with hq | hq
            · by_cases hle : lexLeP b q
              · exact hstar b rfl q hq hle
              · have hqb : lexLtP q b := lexLeP_total_not hle
                have hqb1 : q.1 ≤ b.1 := lexLtP_x hqb
                rcases hab with habx | ⟨habe, haby⟩
                · have hid := cross_expand b x a q
                  have h1 : cross b x a = cross a b x := (cross_cyclic a b x).symm
                  have h2 : cross b a q = -cross a b q := cross_swap_first b a q
                  rw [h1, h2] at hid
                  have h3 : 0 ≤ cross a b q := hE (b, a) (List.mem_cons_self _ _) q hq
                  nlinarith [hid, h3, hxpos, hqb1, hbx1, habx]
                · exfalso
                  simp only [cross] at hxpos
                  rw [habe] at hxpos
                  have hax1 : a.1 ≤ x.1 := by
                    rw [habe]
                    exact hbx1
                  nlinarith [hxpos, haby, hbx1, habe]
            · rw [List.mem_singleton.mp hq]
              rw [cross_right]
          · rcases List.mem_append.mp hq with hq | hq
            · exact hE pr hpr q hq
            · rw [List.mem_singleton.mp hq]
              apply descend x (b :: a :: rest) hpw
                (fun y hy => hlt y (hmem y hy)) hD ?_ pr hpr
              intro b2 a2 rest2 heq
              injection heq with h1 h2
              injection h2 with h2 h3
              subst h1
              subst h2
              exact le_of_lt hxpos
        · intro bt hbt q hq
          rw [List.getLast?_cons_cons] at hbt
          have hbtmem : bt ∈ b :: a :: rest := mem_of_getLast?_eq hbt
          rcases List.mem_append.mp hq with hq | hq
          · exact hbot bt hbt q hq
          · rw [List.mem_singleton.mp hq]
            exact lexLtP_le (hlt bt (hmem bt hbtmem))
        · intro tp htp q hq
          have htpx : tp = x := by
            rw [List.head?_cons] at htp
            exact (Option.some.inj htp).symm
          subst htpx
          rcases List.mem_append.mp hq with hq | hq
          · exact lexLtP_le (hlt q hq)
          · rw [List.mem_singleton.mp hq]
            exact lexLeP_refl tp

/-! ### Hull assembly helpers (C5) -/

theorem mem_of_head?_eq {α : Type} {L : List α} {x : α}
    (h : L.head? = some x) : x ∈ L := by
  cases L with
  | nil => exact Option.noConfusion h
  | cons a t =>
    rw [List.head?_cons] at h
    rw [← Option.some.inj h]
    exact List.mem_cons_self _ _

theorem getLast?_append_right {α : Type} :
    ∀ (l₁ l₂ : List α), l₂ ≠ [] → (l₁ ++ l₂).getLast? = l₂.getLast? := by
  intro l₁
  induction l₁ with
  | nil => intro l₂ _; rfl
  | cons a t ih =>
    intro l₂ h
    rw [List.cons_append]
    have hne : t ++ l₂ ≠ [] := by
      intro hc
      rcases List.append_eq_nil.mp hc with ⟨_, h2⟩
      exact h h2
    cases hm : t ++ l₂ with
    | nil => exact absurd hm hne
    | cons b u =>
      rw [List.getLast?_cons_cons]
      rw [← hm]
      exact ih l₂ h

theorem head?_map_negP (l : List Point) :
    (l.map negP).head? = l.head?.map negP := by
  cases l with
  | nil => rfl
  | cons a t => rfl

theorem getLast?_map_negP : ∀ (l : List Point),
    (l.map negP).getLast? = l.getLast?.map negP := by
  intro l
  induction l with
  | nil => rfl
  | cons a t ih =>
    cases t with
    | nil => rfl
    | cons b u =>
      rw [show ((a :: b :: u : List Point).map negP) =
        negP a :: (b :: u).map negP from rfl]
      rw [show ((b :: u : List Point).map negP) = negP b :: u.map negP from rfl]
      rw [List.getLast?_cons_cons, List.getLast?_cons_cons]
      exact ih

theorem mem_map_negP {l : List Point} {q : Point} : q ∈ l.map negP ↔ negP q ∈ l := by
  constructor
  · intro h
    obtain ⟨a, ha, he⟩ := List.mem_map.mp h
    rw [← he, negP_invol]
    exact ha
  · intro h
    have h2 := List.mem_map_of_mem negP h
    rw [negP_invol] at h2
    exact h2

theorem collinear_of_two {a m : Point} (hne : a ≠ m) (S : List Point)
    (h : ∀ q ∈ S, cross a m q = 0) : allCollinear S := by
  intro p hp q hq r hr
  rw [det4 a p q r]
  rw [cross_parallel hne (h q hq) (h r hr)]
  rw [cross_parallel hne (h p hp) (h r hr)]
  rw [cross_parallel hne (h p hp) (h q hq)]
  ring

theorem allCollinear_iff_of_mem {l1 l2 : List Point} (h : ∀ x, x ∈ l1 ↔ x ∈ l2) :
    allCollinear l1 ↔ allCollinear l2 := by
  constructor
  · intro hc p hp q hq r hr
    exact hc p ((h p).mpr hp) q ((h q).mpr hq) r ((h r).mpr hr)
  · intro hc p hp q hq r hr
    exact hc p ((h p).mp hp) q ((h q).mp hq) r ((h r).mp hr)

theorem two_le_dedup_of_not_collinear {pts : List Point}
    (h : ¬ allCollinear pts) : 2 ≤ pts.dedup.length := by
  by_contra hc
  push_neg at hc
  apply h
  intro p hp q hq r hr
  have hd : ∀ x ∈ pts, ∀ y ∈ pts, x = y := by
    intro x hx y hy
    have hx2 : x ∈ pts.dedup := List.mem_dedup.mpr hx
    have hy2 : y ∈ pts.dedup := List.mem_dedup.mpr hy
    cases hD : pts.dedup with
    | nil =>
      rw [hD] at hx2
      exact absurd hx2 (List.not_mem_nil x)
    | cons z tl =>
      cases tl with
      | nil =>
        rw [hD] at hx2 hy2
        rw [List.mem_singleton.mp hx2, List.mem_singleton.mp hy2]
      | cons w tl2 =>
        rw [hD, List.length_cons, List.length_cons] at hc
        omega
  rw [hd q hq p hp, hd r hr p hp]
  rw [cross_left]

theorem stack_inv_run :
    ∀ (l P σ : List Point),
      StackInv P σ → TopMax P σ →
      (∀ q ∈ P, ∀ y ∈ l, lexLtP q y) →
      List.Pairwise lexLtP l →
      StackInv (P ++ l) (List.foldl (fun acc p => scanStep 0 p acc) σ l) ∧
      TopMax (P ++ l) (List.foldl (fun acc p => scanStep 0 p acc) σ l) := by
  intro l
  induction l with
  | nil =>
    intro P σ h1 h2 _ _
    rw [List.foldl_nil, List.append_nil]
    exact ⟨h1, h2⟩
  | cons x l2 ih =>
    intro P σ hSI hTM hPl hpw
    rw [List.foldl_cons]
    have hlt : ∀ q ∈ P, lexLtP q x := fun q hq => hPl q hq x (List.mem_cons_self _ _)
    have hstar : ∀ tp, σ.head? = some tp → ∀ q ∈ P, lexLeP tp q → 0 ≤ cross tp x q := by
      intro tp htp q hq hle
      have hqtp : lexLeP q tp := hTM tp htp q hq
      have he : tp = q := lexLeP_antisymm hle hqtp
      rw [← he]
      rw [cross_left]
    have hstep := scanStep_aux x P hlt σ hSI hstar
    have hPl2 : ∀ q ∈ P ++ [x], ∀ y ∈ l2, lexLtP q y := by
      intro q hq y hy
      rcases List.mem_append.mp hq with hq | hq
      · exact hPl q hq y (List.mem_cons_of_mem x hy)
      · rw [List.mem_singleton.mp hq]
        exact (List.pairwise_cons.mp hpw).1 y hy
    have hrec := ih (P ++ [x]) (scanStep 0 x σ) hstep.1 hstep.2 hPl2
      (List.pairwise_cons.mp hpw).2
    rw [List.append_assoc] at hrec
    exact hrec

theorem scan_inv (S : List Point) (hne : S ≠ []) (hpw : List.Pairwise lexLtP S) :
    StackInv S (List.foldl (fun acc p => scanStep 0 p acc) [] S) ∧
    TopMax S (List.foldl (fun acc p => scanStep 0 p acc) [] S) := by
  cases S with
  | nil => exact absurd rfl hne
  | cons p0 ps =>
    rw [List.foldl_cons]
    rw [show scanStep 0 p0 [] = [p0] from rfl]
    have h0 : StackInv [p0] [p0] := by
      refine ⟨List.cons_ne_nil _ _, ?_, List.pairwise_singleton _ _, ?_, ?_, ?_⟩
      · intro y hy
        exact hy
      · intro t ht
        rw [show consecTriples [p0] = [] from rfl] at ht
        exact absurd ht (List.not_mem_nil t)
      · intro pr hpr
        rw [show consecPairs [p0] = [] from rfl] at hpr
        exact absurd hpr (List.not_mem_nil pr)
      · intro bt hbt q hq
        rw [List.getLast?_singleton] at hbt
        rw [List.mem_singleton.mp hq, ← Option.some.inj hbt]
        exact lexLeP_refl p0
    have hTM0 : TopMax [p0] [p0] := by
      intro tp htp q hq
      rw [List.head?_cons] at htp
      rw [List.mem_singleton.mp hq, ← Option.some.inj htp]
      exact lexLeP_refl p0
    have hPl : ∀ q ∈ [p0], ∀ y ∈ ps, lexLtP q y := by
      intro q hq y hy
      rw [List.mem_singleton.mp hq]
      exact (List.pairwise_cons.mp hpw).1 y hy
    exact stack_inv_run ps [p0] [p0] h0 hTM0 hPl (List.pairwise_cons.mp hpw).2

theorem chain_props_of_inv (S σ : List Point)
    (hSI : StackInv S σ) (hTM : TopMax S σ) :
    (∀ v ∈ σ.reverse, v ∈ S) ∧
    List.Pairwise lexLtP σ.reverse ∧
    (∀ t ∈ consecTriples σ.reverse, 0 < cross t.1 t.2.1 t.2.2) ∧
    (∀ pr ∈ consecPairs σ.reverse, ∀ q ∈ S, 0 ≤ cross pr.1 pr.2 q) ∧
    (∀ mn, σ.reverse.head? = some mn → mn ∈ S ∧ ∀ q ∈ S, lexLeP mn q) ∧
    (∀ mx, σ.reverse.getLast? = some mx → mx ∈ S ∧ ∀ q ∈ S, lexLeP q mx) := by
  obtain ⟨hσne, hmem, hσpw, hD, hE, hbot⟩ := hSI
  refine ⟨?_, ?_, ?_, ?_, ?_, ?_⟩
  · intro v hv
    exact hmem v (List.mem_reverse.mp hv)
  · rw [List.pairwise_reverse]
    exact hσpw
  · intro t ht
    obtain ⟨a, b, c⟩ := t
    exact hD (c, b, a) (mem_consecTriples_reverse.mp ht)
  · intro pr hpr q hq
    obtain ⟨u, v⟩ := pr
    exact hE (v, u) (mem_consecPairs_reverse.mp hpr) q hq
  · intro mn hmn
    rw [List.head?_reverse] at hmn
    exact ⟨hmem mn (mem_of_getLast?_eq hmn), hbot mn hmn⟩
  · intro mx hmx
    rw [List.getLast?_reverse] at hmx
    exact ⟨hmem mx (mem_of_head?_eq hmx), hTM mx hmx⟩

theorem chain_two_le (S σ : List Point) (hSI : StackInv S σ) (hTM : TopMax S σ)
    (hpw : List.Pairwise lexLtP S) (h2 : 2 ≤ S.length) : 2 ≤ σ.length := by
  obtain ⟨hσne, _, _, _, _, hbot⟩ := hSI
  cases σ with
  | nil => exact absurd rfl hσne
  | cons z tail =>
    cases tail with
    | nil =>
      exfalso
      cases S with
      | nil =>
        rw [List.length_nil] at h2
        omega
      | cons s0 S2 =>
        cases S2 with
        | nil =>
          rw [List.length_cons, List.length_nil] at h2
          omega
        | cons s1 S3 =>
          have h01 : lexLtP s0 s1 := (List.pairwise_cons.mp hpw).1 s1 (List.mem_cons_self _ _)
          have hm0 : s0 ∈ s0 :: s1 :: S3 := List.mem_cons_self _ _
          have hm1 : s1 ∈ s0 :: s1 :: S3 :=
            List.mem_cons_of_mem _ (List.mem_cons_self _ _)
          have hz0 : lexLeP z s0 := hbot z (List.getLast?_singleton z) s0 hm0
          have hz1 : lexLeP z s1 := hbot z (List.getLast?_singleton z) s1 hm1
          have h0z : lexLeP s0 z := hTM z rfl s0 hm0
          have h1z : lexLeP s1 z := hTM z rfl s1 hm1
          have he0 : s0 = z := lexLeP_antisymm h0z hz0
          have he1 : s1 = z := lexLeP_antisymm h1z hz1
          exact lexLtP_ne h01 (he0.trans he1.symm)
    | cons w tail2 =>
      rw [List.length_cons, List.length_cons]
      omega

theorem lower_chain_props (S : List Point) (h2 : 2 ≤ S.length)
    (hpw : List.Pairwise lexLtP S) :
    (∀ v ∈ buildChain 0 S, v ∈ S) ∧
    2 ≤ (buildChain 0 S).length ∧
    List.Pairwise lexLtP (buildChain 0 S) ∧
    (∀ t ∈ consecTriples (buildChain 0 S), 0 < cross t.1 t.2.1 t.2.2) ∧
    (∀ pr ∈ consecPairs (buildChain 0 S), ∀ q ∈ S, 0 ≤ cross pr.1 pr.2 q) ∧
    (∀ mn, (buildChain 0 S).head? = some mn → mn ∈ S ∧ ∀ q ∈ S, lexLeP mn q) ∧
    (∀ mx, (buildChain 0 S).getLast? = some mx → mx ∈ S ∧ ∀ q ∈ S, lexLeP q mx) := by
  have hne : S ≠ [] := ne_nil_of_two_le h2
  obtain ⟨hSI, hTM⟩ := scan_inv S hne hpw
  have hσ2 : 2 ≤ (List.foldl (fun acc p => scanStep 0 p acc) [] S).length :=
    chain_two_le S _ hSI hTM hpw h2
  obtain ⟨hmem, hpwc, hD, hE, hhd, hlast⟩ := chain_props_of_inv S _ hSI hTM
  refine ⟨hmem, ?_, hpwc, hD, hE, hhd, hlast⟩
  rw [buildChain, List.length_reverse]
  exact hσ2

theorem upper_chain_props (S : List Point) (h2 : 2 ≤ S.length)
    (hpw : List.Pairwise lexLtP S) :
    (∀ v ∈ buildChain 0 S.reverse, v ∈ S) ∧
    2 ≤ (buildChain 0 S.reverse).length ∧
    List.Pairwise (fun u v => lexLtP v u) (buildChain 0 S.reverse) ∧
    (∀ t ∈ consecTriples (buildChain 0 S.reverse), 0 < cross t.1 t.2.1 t.2.2) ∧
    (∀ pr ∈ consecPairs (buildChain 0 S.reverse), ∀ q ∈ S, 0 ≤ cross pr.1 pr.2 q) ∧
    (∀ mx2, (buildChain 0 S.reverse).head? = some mx2 →
      mx2 ∈ S ∧ ∀ q ∈ S, lexLeP q mx2) ∧
    (∀ mn2, (buildChain 0 S.reverse).getLast? = some mn2 →
      mn2 ∈ S ∧ ∀ q ∈ S, lexLeP mn2 q) := by
  have hlenN : (S.reverse.map negP).length = S.length := by
    rw [List.length_map, List.length_reverse]
  have h2N : 2 ≤ (S.reverse.map negP).length := by
    rw [hlenN]
    exact h2
  have hpwR : List.Pairwise (fun a b => lexLtP b a) S.reverse := by
    rw [List.pairwise_reverse]
    exact hpw
  have hpwN : List.Pairwise lexLtP (S.reverse.map negP) := by
    rw [List.pairwise_map]
    exact hpwR.imp (fun h => lexLtP_negP.mpr h)
  have hmemN : ∀ q : Point, q ∈ S.reverse.map negP ↔ negP q ∈ S := by
    intro q
    rw [mem_map_negP, List.mem_reverse]
  have hmemN2 : ∀ q : Point, q ∈ S → negP q ∈ S.reverse.map negP := by
    intro q hq
    rw [hmemN, negP_invol]
    exact hq
  obtain ⟨hmemB, h2B, hpwB, hDB, hEB, hhdB, hlastB⟩ :=
    lower_chain_props (S.reverse.map negP) h2N hpwN
  have hNm : (S.reverse.map negP).map negP = S.reverse := map_negP_negP S.reverse
  have hUB : buildChain 0 S.reverse =
      (buildChain 0 (S.reverse.map negP)).map negP := by
    rw [← hNm, buildChain_negP, hNm]
  rw [hUB]
  refine ⟨?_, ?_, ?_, ?_, ?_, ?_, ?_⟩
  · intro v hv
    rw [mem_map_negP] at hv
    have h3 := (hmemN (negP v)).mp (hmemB (negP v) hv)
    rw [negP_invol] at h3
    exact h3
  · rw [List.length_map]
    exact h2B
  · rw [List.pairwise_map]
    exact hpwB.imp (fun h => lexLtP_negP.mpr h)
  · intro t ht
    rw [consecTriples_map] at ht
    obtain ⟨t0, ht0, he⟩ := List.mem_map.mp ht
    rw [← he]
    dsimp only
    rw [cross_negP]
    exact hDB t0 ht0
  · intro pr hpr q hq
    rw [consecPairs_map] at hpr
    obtain ⟨pr0, hpr0, he⟩ := List.mem_map.mp hpr
    rw [← he]
    dsimp only
    have h2 : cross (negP pr0.1) (negP pr0.2) (negP (negP q)) =
        cross pr0.1 pr0.2 (negP q) := cross_negP _ _ _
    rw [negP_invol] at h2
    rw [h2]
    exact hEB pr0 hpr0 (negP q) (hmemN2 q hq)
  · intro mx2 hmx2
    rw [head?_map_negP] at hmx2
    cases hBh : (buildChain 0 (S.reverse.map negP)).head? with
    | none =>
      rw [hBh] at hmx2
      exact Option.noConfusion hmx2
    | some mnB =>
      rw [hBh] at hmx2
      have he : negP mnB = mx2 := Option.some.inj hmx2
      obtain ⟨hmnBN, hmnBmin⟩ := hhdB mnB hBh
      subst he
      constructor
      · exact (hmemN mnB).mp hmnBN
      · intro q hq
        have hle := hmnBmin (negP q) (hmemN2 q hq)
        rw [← negP_invol mnB] at hle
        exact lexLeP_negP.mp hle
  · intro mn2 hmn2
    rw [getLast?_map_negP] at hmn2
    cases hBl : (buildChain 0 (S.reverse.map negP)).getLast? with
    | none =>
      rw [hBl] at hmn2
      exact Option.noConfusion hmn2
    | some mxB =>
      rw [hBl] at hmn2
      have he : negP mxB = mn2 := Option.some.inj hmn2
      obtain ⟨hmxBN, hmxBmax⟩ := hlastB mxB hBl
      subst he
      constructor
      · exact (hmemN mxB).mp hmxBN
      · intro q hq
        have hle := hmxBmax (negP q) (hmemN2 q hq)
        rw [← negP_invol mxB] at hle
        exact lexLeP_negP.mp hle

theorem corner_strict (S : List Point) (a2 mx u1 : Point)
    (hu1S : u1 ∈ S)
    (ha2m : lexLtP a2 mx) (hu1m : lexLtP u1 mx)
    (hEam : ∀ q ∈ S, 0 ≤ cross a2 mx q)
    (hEmu : ∀ q ∈ S, 0 ≤ cross mx u1 q)
    (hmxmax : ∀ q ∈ S, lexLeP q mx)
    (hncS : ¬ allCollinear S) :
    0 < cross a2 mx u1 := by
  rcases lt_or_eq_of_le (hEam u1 hu1S) with h | h
  · exact h
  · exfalso
    by_cases hvert : a2.1 < mx.1
    · have hu1x : u1.1 ≤ mx.1 := lexLtP_x hu1m
      rcases lt_or_eq_of_le hu1x with hu1lt | hu1eq
      · apply hncS
        refine @collinear_of_two a2 mx ?_ S ?_
        · intro he
          rw [he] at hvert
          exact lt_irrefl _ hvert
        · intro q hq
          have hid := cross_expand a2 mx u1 q
          rw [← h] at hid
          have hdet := det4 a2 mx u1 q
          rw [← h] at hdet
          have hE1 := hEam q hq
          have hE2 := hEmu q hq
          refine le_antisymm ?_ hE1
          nlinarith [hid, hdet, hE2, hvert, hu1lt]
      · have hu1y : u1.2 = mx.2 := by
          simp only [cross] at h
          rw [hu1eq] at h
          refine le_antisymm ?_ ?_
          · nlinarith [h, hvert]
          · nlinarith [h, hvert]
        have heq : u1 = mx := by
          rw [Prod.ext_iff]
          exact ⟨hu1eq, hu1y⟩
        exact lexLtP_ne hu1m heq
    · have ha2e : a2.1 = mx.1 := le_antisymm (lexLtP_x ha2m) (not_lt.mp hvert)
      have ha2y : a2.2 < mx.2 := by
        rcases ha2m with hh | ⟨_, hh⟩
        · exact absurd hh hvert
        · exact hh
      have hu1x : u1.1 = mx.1 := by
        have h1 : u1.1 ≤ mx.1 := lexLtP_x hu1m
        simp only [cross] at h
        rw [ha2e] at h
        refine le_antisymm h1 ?_
        nlinarith [h, ha2y]
      have hu1y : u1.2 < mx.2 := by
        rcases hu1m with hh | ⟨_, hh⟩
        · rw [hu1x] at hh
          exact absurd hh (lt_irrefl _)
        · exact hh
      apply hncS
      have hxcoord : ∀ y ∈ S, y.1 = mx.1 := by
        intro y hy
        have h1 : y.1 ≤ mx.1 := lexLeP_x (hmxmax y hy)
        have h2 := hEmu y hy
        simp only [cross] at h2
        rw [hu1x] at h2
        exact le_antisymm h1 (by nlinarith [h2, hu1y])
      intro p hp q hq r hr
      simp only [cross]
      rw [hxcoord p hp, hxcoord q hq, hxcoord r hr]
      ring

theorem hull_assembly (S L U : List Point) (mn mx : Point)
    (hLmem : ∀ v ∈ L, v ∈ S) (hUmem : ∀ v ∈ U, v ∈ S)
    (hL2 : 2 ≤ L.length) (hU2 : 2 ≤ U.length)
    (hpwL : List.Pairwise lexLtP L)
    (hpwU : List.Pairwise (fun u v => lexLtP v u) U)
    (hDL : ∀ t ∈ consecTriples L, 0 < cross t.1 t.2.1 t.2.2)
    (hDU : ∀ t ∈ consecTriples U, 0 < cross t.1 t.2.1 t.2.2)
    (hEL : ∀ pr ∈ consecPairs L, ∀ q ∈ S, 0 ≤ cross pr.1 pr.2 q)
    (hEU : ∀ pr ∈ consecPairs U, ∀ q ∈ S, 0 ≤ cross pr.1 pr.2 q)
    (hLh : L.head? = some mn) (hLl : L.getLast? = some mx)
    (hUh : U.head? = some mx) (hUl : U.getLast? = some mn)
    (hmxmax : ∀ q ∈ S, lexLeP q mx)
    (hncS : ¬ allCollinear S) :
    3 ≤ (L.dropLast ++ U).length ∧
    (L.dropLast ++ U).head? = (L.dropLast ++ U).getLast? ∧
    (∀ v ∈ L.dropLast ++ U, v ∈ S) ∧
    (∀ t ∈ consecTriples (L.dropLast ++ U), 0 < cross t.1 t.2.1 t.2.2) ∧
    (∀ pr ∈ consecPairs (L.dropLast ++ U), ∀ q ∈ S, 0 ≤ cross pr.1 pr.2 q) := by
  have hLne : L ≠ [] := ne_nil_of_two_le hL2
  have hUne : U ≠ [] := ne_nil_of_two_le hU2
  have hAne : L.dropLast ≠ [] := by
    intro hc
    have hld := List.length_dropLast L
    rw [hc, List.length_nil] at hld
    omega
  have hgl : L.getLast hLne = mx := by
    have hq := List.getLast?_eq_getLast L hLne
    rw [hq] at hLl
    exact Option.some.inj hLl
  have hLA : L.dropLast ++ [mx] = L := by
    rw [← hgl]
    exact List.dropLast_append_getLast hLne
  have hAl : L.dropLast.getLast? = some (L.dropLast.getLast hAne) :=
    List.getLast?_eq_getLast _ hAne
  have hjp : (L.dropLast.getLast hAne, mx) ∈ consecPairs L := by
    have hp := pair_of_last L.dropLast (L.dropLast.getLast hAne) mx hAl
    rw [hLA] at hp
    exact hp
  have ha2m : lexLtP (L.dropLast.getLast hAne) mx :=
    pairs_pairwise L hpwL (L.dropLast.getLast hAne, mx) hjp
  obtain ⟨h0, t0, hU⟩ := List.exists_cons_of_ne_nil hUne
  have hh0 : h0 = mx := by
    rw [hU, List.head?_cons] at hUh
    exact Option.some.inj hUh
  rw [hh0] at hU
  have ht0ne : t0 ≠ [] := by
    intro hc
    rw [hU, hc, List.length_cons, List.length_nil] at hU2
    omega
  obtain ⟨u1, U3, ht0⟩ := List.exists_cons_of_ne_nil ht0ne
  rw [ht0] at hU
  have hmu1 : (mx, u1) ∈ consecPairs U := by
    rw [hU]
    exact List.mem_cons_self _ _
  have hu1m : lexLtP u1 mx := pairs_pairwise U hpwU (mx, u1) hmu1
  have hu1S : u1 ∈ S := by
    apply hUmem u1
    rw [hU]
    exact List.mem_cons_of_mem _ (List.mem_cons_self _ _)
  have hEam : ∀ q ∈ S, 0 ≤ cross (L.dropLast.getLast hAne) mx q := by
    intro q hq
    exact hEL (L.dropLast.getLast hAne, mx) hjp q hq
  have hEmu : ∀ q ∈ S, 0 ≤ cross mx u1 q := by
    intro q hq
    exact hEU (mx, u1) hmu1 q hq
  have hcorner : 0 < cross (L.dropLast.getLast hAne) mx u1 :=
    corner_strict S (L.dropLast.getLast hAne) mx u1 hu1S ha2m hu1m hEam hEmu
      hmxmax hncS
  refine ⟨?_, ?_, ?_, ?_, ?_⟩
  · rw [List.length_append, List.length_dropLast]
    omega
  · rw [head?_append_left U hAne]
    rw [head?_dropLast hL2]
    rw [getLast?_append_right L.dropLast U hUne]
    rw [hLh, hUl]
  · intro v hv
    rcases List.mem_append.mp hv with hv | hv
    · exact hLmem v ((List.dropLast_sublist L).subset hv)
    · exact hUmem v hv
  · intro t ht
    rcases consecTriples_append_cases L.dropLast U t ht with h | h | h | h
    · apply hDL
      rw [← hLA]
      exact consecTriples_append_left [mx] L.dropLast t h
    · exact hDU t h
    · obtain ⟨t1, t2, t3⟩ := t
      obtain ⟨he1, he2, he3⟩ := h
      rw [hAl] at he1
      have ht1 : t1 = L.dropLast.getLast hAne := (Option.some.inj he1).symm
      rw [hU, List.head?_cons] at he2
      have ht2 : t2 = mx := (Option.some.inj he2).symm
      rw [hU, show (mx :: u1 :: U3 : List Point).tail = u1 :: U3 from rfl,
        List.head?_cons] at he3
      have ht3 : t3 = u1 := (Option.some.inj he3).symm
      dsimp only
      rw [ht1, ht2, ht3]
      exact hcorner
    · obtain ⟨t1, t2, t3⟩ := t
      obtain ⟨he1, he2, he3⟩ := h
      rw [hAl] at he2
      have ht2 : t2 = L.dropLast.getLast hAne := (Option.some.inj he2).symm
      rw [hU, List.head?_cons] at he3
      have ht3 : t3 = mx := (Option.some.inj he3).symm
      have htr := triple_of_last L.dropLast t1 (L.dropLast.getLast hAne) mx he1 hAl
      rw [hLA] at htr
      have hv := hDL (t1, L.dropLast.getLast hAne, mx) htr
      dsimp only at hv ⊢
      rw [ht2, ht3]
      exact hv
  · intro pr hpr q hq
    rcases consecPairs_append_cases L.dropLast U pr hpr with h | h | h
    · apply hEL pr ?_ q hq
      rw [← hLA]
      exact consecPairs_sub_left [mx] L.dropLast pr h
    · exact hEU pr h q hq
    · obtain ⟨pr1, pr2⟩ := pr
      obtain ⟨he1, he2⟩ := h
      rw [hAl] at he1
      have h1 : pr1 = L.dropLast.getLast hAne := (Option.some.inj he1).symm
      rw [hU, List.head?_cons] at he2
      have h2 : pr2 = mx := (Option.some.inj he2).symm
      dsimp only
      rw [h1, h2]
      exact hEam q hq

theorem exists_head?_some {α : Type} {l : List α} (h : l ≠ []) :
    ∃ x, l.head? = some x := by
  cases l with
  | nil => exact absurd rfl h
  | cons a t => exact ⟨a, rfl⟩

theorem exists_getLast?_some {α : Type} {l : List α} (h : l ≠ []) :
    ∃ x, l.getLast? = some x := ⟨l.getLast h, List.getLast?_eq_getLast l h⟩

/-- C5: `to_convex_hull` at tolerance 0, on an input whose distinct points are
not all collinear, succeeds and returns a looped polyline: at least three
vertices with the last equal to the first, all of them input points, every
three consecutive vertices turning strictly counter-clockwise, and every
input point lying on or to the left of every hull edge (inside the hull). -/
theorem C5_hull_ccw_contains (pts : List Point)
    (hnc : ¬ allCollinear pts) :
    ∃ H, to_convex_hull pts 0 = Except.ok H ∧
      3 ≤ H.length ∧
      H.head? = H.getLast? ∧
      (∀ v ∈ H, v ∈ pts) ∧
      (∀ t ∈ consecTriples H, 0 < cross t.1 t.2.1 t.2.2) ∧
      (∀ pr ∈ consecPairs H, ∀ q ∈ pts, 0 ≤ cross pr.1 pr.2 q) := by
  have h2d : 2 ≤ pts.dedup.length := two_le_dedup_of_not_collinear hnc
  have hSmem : ∀ x : Point, x ∈ sortLex pts.dedup ↔ x ∈ pts := by
    intro x
    rw [sortLex_mem, List.mem_dedup]
  have hpwS : List.Pairwise lexLtP (sortLex pts.dedup) :=
    sortLex_pairwise pts.dedup (List.nodup_dedup pts)
  have hlenS : (sortLex pts.dedup).length = pts.dedup.length :=
    (List.perm_insertionSort lexLeP pts.dedup).length_eq
  have h2S : 2 ≤ (sortLex pts.dedup).length := by
    rw [hlenS]
    exact h2d
  have hncS : ¬ allCollinear (sortLex pts.dedup) := by
    intro hc
    exact hnc ((allCollinear_iff_of_mem hSmem).mp hc)
  obtain ⟨hLmem, hL2, hpwL, hDL, hEL, hLhd, hLlast⟩ :=
    lower_chain_props (sortLex pts.dedup) h2S hpwS
  obtain ⟨hUmem, hU2, hpwU, hDU, hEU, hUhd, hUlast⟩ :=
    upper_chain_props (sortLex pts.dedup) h2S hpwS
  have hLne : buildChain 0 (sortLex pts.dedup) ≠ [] := ne_nil_of_two_le hL2
  have hUne : buildChain 0 (sortLex pts.dedup).reverse ≠ [] := ne_nil_of_two_le hU2
  obtain ⟨mn, hLh⟩ := exists_head?_some hLne
  obtain ⟨mx, hLl⟩ := exists_getLast?_some hLne
  obtain ⟨mx2, hUh⟩ := exists_head?_some hUne
  obtain ⟨mn2, hUl⟩ := exists_getLast?_some hUne
  obtain ⟨hmnS, hmnmin⟩ := hLhd mn hLh
  obtain ⟨hmxS, hmxmax⟩ := hLlast mx hLl
  obtain ⟨hmx2S, hmx2max⟩ := hUhd mx2 hUh
  obtain ⟨hmn2S, hmn2min⟩ := hUlast mn2 hUl
  have hmxe : mx2 = mx := lexLeP_antisymm (hmxmax mx2 hmx2S) (hmx2max mx hmxS)
  have hmne : mn2 = mn := lexLeP_antisymm (hmn2min mn hmnS) (hmnmin mn2 hmn2S)
  rw [hmxe] at hUh
  rw [hmne] at hUl
  obtain ⟨hlen, hclose, hmemH, hDH, hEH⟩ :=
    hull_assembly (sortLex pts.dedup) (buildChain 0 (sortLex pts.dedup))
      (buildChain 0 (sortLex pts.dedup).reverse) mn mx hLmem hUmem hL2 hU2
      hpwL hpwU hDL hDU hEL hEU hLh hLl hUh hUl hmxmax hncS
  refine ⟨(buildChain 0 (sortLex pts.dedup)).dropLast ++
    buildChain 0 (sortLex pts.dedup).reverse, ?_, hlen, hclose, ?_, hDH, ?_⟩
  · rw [show to_convex_hull pts 0 =
      (if 2 ≤ pts.dedup.length then Except.ok (convexHullRun ((0:ℚ)^2) pts)
       else Except.error GeomError.validation) from rfl]
    rw [if_pos h2d]
    rw [show ((0:ℚ)^2) = 0 from by norm_num]
    rfl
  · intro v hv
    exact (hSmem v).mp (hmemH v hv)
  · intro pr hpr q hq
    exact hEH pr hpr q ((hSmem q).mpr hq)

/-- C5 witness: the unit square is not collinear; its hull is a proper
counter-clockwise loop of its corners containing all four input points. -/
theorem C5_hull_ccw_contains_witness :
    (¬ allCollinear [((0:ℚ),(0:ℚ)), (1,0), (1,1), (0,1)]) ∧
    (∃ H, to_convex_hull [((0:ℚ),(0:ℚ)), (1,0), (1,1), (0,1)] 0 = Except.ok H ∧
      3 ≤ H.length ∧
      H.head? = H.getLast? ∧
      (∀ v ∈ H, v ∈ [((0:ℚ),(0:ℚ)), (1,0), (1,1), (0,1)]) ∧
      (∀ t ∈ consecTriples H, 0 < cross t.1 t.2.1 t.2.2) ∧
      (∀ pr ∈ consecPairs H, ∀ q ∈ [((0:ℚ),(0:ℚ)), (1,0), (1,1), (0,1)],
        0 ≤ cross pr.1 pr.2 q)) :=
  ⟨by decide, C5_hull_ccw_contains _ (by decide)⟩

/-- C5 counterexample to the unconditional claim: for all-collinear input the
returned loop is degenerate (a consecutive triple fails the strict
counter-clockwise winding), and at a positive tolerance an input point can
end up strictly outside the returned hull. -/
theorem C5_counterexample :
    (to_convex_hull [((0:ℚ),(0:ℚ)), (1,0), (2,0)] 0 =
      Except.ok [((0:ℚ),(0:ℚ)), (2,0), (0,0)] ∧
     ¬ (∀ t ∈ consecTriples [((0:ℚ),(0:ℚ)), (2,0), (0,0)],
        0 < cross t.1 t.2.1 t.2.2)) ∧
    (to_convex_hull [((0:ℚ),(0:ℚ)), (10,0), (5,-1), (5,5)] 3 =
      Except.ok [((0:ℚ),(0:ℚ)), (10,0), (5,5), (0,0)] ∧
     (5,-1) ∈ [((0:ℚ),(0:ℚ)), (10,0), (5,-1), (5,5)] ∧
     cross ((0:ℚ),(0:ℚ)) (10,0) (5,-1) < 0) := by
  refine ⟨⟨?_, ?_⟩, ?_, ?_, ?_⟩
  · rfl
  · decide
  · rfl
  · decide
  · decide

/-! ### Convex decomposition proofs (C6) -/

theorem consecPairs_split : ∀ (C : List Point) (v : Point) (D : List Point),
    consecPairs (C ++ v :: D) = consecPairs (C ++ [v]) ++ consecPairs (v :: D) := by
  intro C
  induction C with
  | nil => intro v D; rfl
  | cons c C2 ih =>
    intro v D
    cases C2 with
    | nil => rfl
    | cons c2 C3 =>
      rw [show ((c :: c2 :: C3) ++ v :: D : List Point) =
        c :: c2 :: (C3 ++ v :: D) from rfl]
      rw [show consecPairs (c :: c2 :: (C3 ++ v :: D)) =
        (c, c2) :: consecPairs (c2 :: (C3 ++ v :: D)) from rfl]
      rw [show ((c :: c2 :: C3) ++ [v] : List Point) =
        c :: c2 :: (C3 ++ [v]) from rfl]
      rw [show consecPairs (c :: c2 :: (C3 ++ [v])) =
        (c, c2) :: consecPairs (c2 :: (C3 ++ [v])) from rfl]
      rw [show (((c, c2) :: consecPairs (c2 :: (C3 ++ [v]))) ++ consecPairs (v :: D)) =
        (c, c2) :: (consecPairs (c2 :: (C3 ++ [v])) ++ consecPairs (v :: D)) from rfl]
      congr 1
      have hih := ih v D
      rw [show ((c2 :: C3) ++ v :: D : List Point) = c2 :: (C3 ++ v :: D) from rfl] at hih
      rw [show ((c2 :: C3) ++ [v] : List Point) = c2 :: (C3 ++ [v]) from rfl] at hih
      exact hih

theorem shoelaceClosed_split (C : List Point) (v : Point) (D : List Point) :
    shoelaceClosed (C ++ v :: D) =
      shoelaceClosed (C ++ [v]) + shoelaceClosed (v :: D) := by
  simp only [shoelaceClosed]
  rw [consecPairs_split, List.map_append, List.sum_append]

theorem rot1_length (V : List Point) : (rot1 V).length = V.length := by
  cases V with
  | nil => rfl
  | cons v T =>
    rw [show rot1 (v :: T) = T ++ [v] from rfl]
    simp only [List.length_append, List.length_cons, List.length_nil,
      List.length_singleton]

theorem rot1_shoelace (V : List Point) : shoelaceLoop (rot1 V) = shoelaceLoop V := by
  cases V with
  | nil => rfl
  | cons v T =>
    cases T with
    | nil => rfl
    | cons t0 T2 =>
      rw [show rot1 (v :: t0 :: T2) = (t0 :: T2) ++ [v] from rfl]
      simp only [shoelaceLoop, closeLoop]
      rw [show ((t0 :: T2) ++ [v] : List Point).take 1 = [t0] from rfl]
      rw [show (v :: t0 :: T2 : List Point).take 1 = [v] from rfl]
      have h1 : shoelaceClosed (((t0 :: T2) ++ [v]) ++ [t0]) =
          shoelaceClosed ((t0 :: T2) ++ [v]) + shoelaceClosed [v, t0] := by
        rw [List.append_assoc]
        exact shoelaceClosed_split (t0 :: T2) v [t0]
      have h2 : shoelaceClosed ((v :: t0 :: T2) ++ [v]) =
          shoelaceClosed [v, t0] + shoelaceClosed (t0 :: (T2 ++ [v])) := by
        exact shoelaceClosed_split [v] t0 (T2 ++ [v])
      rw [h1, h2]
      rw [show shoelaceClosed (t0 :: (T2 ++ [v])) =
        shoelaceClosed ((t0 :: T2) ++ [v]) from rfl]
      exact add_comm _ _

theorem rotN_length : ∀ (n : ℕ) (V : List Point), (rotN n V).length = V.length := by
  intro n
  induction n with
  | zero => intro V; rfl
  | succ n ih =>
    intro V
    rw [show rotN (n + 1) V = rotN n (rot1 V) from rfl, ih, rot1_length]

theorem rotN_shoelace : ∀ (n : ℕ) (V : List Point),
    shoelaceLoop (rotN n V) = shoelaceLoop V := by
  intro n
  induction n with
  | zero => intro V; rfl
  | succ n ih =>
    intro V
    rw [show rotN (n + 1) V = rotN n (rot1 V) from rfl, ih, rot1_shoelace]

theorem take_one_of_head? {l : List Point} {x : Point} (h : l.head? = some x) :
    l.take 1 = [x] := by
  cases l with
  | nil => exact Option.noConfusion h
  | cons a t =>
    rw [List.head?_cons] at h
    rw [show (a :: t : List Point).take 1 = [a] from rfl]
    rw [Option.some.inj h]

theorem head?_take {α : Type} {l : List α} {j : ℕ} (h : 0 < j) :
    (l.take j).head? = l.head? := by
  cases l with
  | nil => rw [List.take_nil]
  | cons a t =>
    cases j with
    | zero => exact absurd h (lt_irrefl 0)
    | succ j2 => rfl

theorem shoelace_split (X D1 : List Point) (w0 vj : Point)
    (hXne : X ≠ []) (hXh : X.head? = some w0) :
    shoelaceLoop (X ++ [vj]) + shoelaceLoop ((vj :: D1) ++ [w0]) =
      shoelaceLoop (X ++ vj :: D1) := by
  simp only [shoelaceLoop, closeLoop]
  have ht1 : (X ++ [vj]).take 1 = [w0] := by
    apply take_one_of_head?
    rw [head?_append_left [vj] hXne]
    exact hXh
  have ht2 : ((vj :: D1) ++ [w0]).take 1 = [vj] := rfl
  have ht3 : (X ++ vj :: D1).take 1 = [w0] := by
    apply take_one_of_head?
    rw [head?_append_left (vj :: D1) hXne]
    exact hXh
  rw [ht1, ht2, ht3]
  have h1 : shoelaceClosed ((X ++ [vj]) ++ [w0]) =
      shoelaceClosed (X ++ [vj]) + shoelaceClosed [vj, w0] := by
    rw [List.append_assoc]
    exact shoelaceClosed_split X vj [w0]
  have h2 : shoelaceClosed (((vj :: D1) ++ [w0]) ++ [vj]) =
      shoelaceClosed ((vj :: D1) ++ [w0]) + shoelaceClosed [w0, vj] := by
    rw [List.append_assoc]
    exact shoelaceClosed_split (vj :: D1) w0 [vj]
  have h3 : shoelaceClosed ((X ++ vj :: D1) ++ [w0]) =
      shoelaceClosed (X ++ [vj]) + shoelaceClosed ((vj :: D1) ++ [w0]) := by
    rw [List.append_assoc]
    exact shoelaceClosed_split X vj (D1 ++ [w0])
  rw [h1, h2, h3]
  have hc : shoelaceClosed [vj, w0] + shoelaceClosed [w0, vj] = 0 := by
    simp only [shoelaceClosed]
    rw [show consecPairs [vj, w0] = [(vj, w0)] from rfl]
    rw [show consecPairs [w0, vj] = [(w0, vj)] from rfl]
    simp only [List.map_cons, List.map_nil, List.sum_cons, List.sum_nil]
    ring
  linarith [hc]

theorem decomposeAux_area (tol : ℚ) :
    ∀ (fuel : ℕ) (V : List Point),
      ((decomposeAux tol fuel V).map shoelaceLoop).sum = shoelaceLoop V := by
  intro fuel
  induction fuel with
  | zero =>
    intro V
    rw [show decomposeAux tol 0 V = [V] from rfl]
    rw [List.map_cons, List.map_nil, List.sum_cons, List.sum_nil, add_zero]
  | succ fuel ih =>
    intro V
    rw [show decomposeAux tol (fuel + 1) V =
      (match findReflex tol V with
       | none => [V]
       | some i =>
         match findDiagonal (rotN i V) with
         | none => [rotN i V]
         | some j =>
             decomposeAux tol fuel ((rotN i V).take (j + 1)) ++
             decomposeAux tol fuel ((rotN i V).drop j ++ (rotN i V).take 1))
      from rfl]
    cases hr : findReflex tol V with
    | none =>
      dsimp only
      rw [List.map_cons, List.map_nil, List.sum_cons, List.sum_nil, add_zero]
    | some i =>
      dsimp only
      cases hd : findDiagonal (rotN i V) with
      | none =>
        dsimp only
        rw [List.map_cons, List.map_nil, List.sum_cons, List.sum_nil, add_zero]
        exact rotN_shoelace i V
      | some j =>
        dsimp only
        rw [List.map_append, List.sum_append, ih, ih]
        have hp := List.find?_some hd
        rw [Bool.and_eq_true, Bool.and_eq_true] at hp
        obtain ⟨⟨h2j, hj2⟩, _⟩ := hp
        rw [decide_eq_true_eq] at h2j
        rw [decide_eq_true_eq] at hj2
        have hdropne : (rotN i V).drop j ≠ [] := by
          intro hc
          have hl := List.length_drop j (rotN i V)
          rw [hc, List.length_nil] at hl
          omega
        obtain ⟨vj, D1, hD⟩ := List.exists_cons_of_ne_nil hdropne
        have hXne : (rotN i V).take j ≠ [] := by
          intro hc
          have hl := List.length_take j (rotN i V)
          rw [hc, List.length_nil] at hl
          have hle : j ≤ (rotN i V).length := by omega
          rw [Nat.min_eq_left hle] at hl
          omega
        have hWne : rotN i V ≠ [] := by
          intro hc
          rw [hc, List.length_nil] at hj2
          omega
        obtain ⟨w0, hw0⟩ := exists_head?_some hWne
        have htj : (rotN i V).take (j + 1) = (rotN i V).take j ++ [vj] := by
          rw [List.take_add]
          rw [hD]
          rfl
        have hXh : ((rotN i V).take j).head? = some w0 := by
          rw [head?_take (show 0 < j by omega)]
          exact hw0
        have hW1 : (rotN i V).take 1 = [w0] := take_one_of_head? hw0
        have hsplit := shoelace_split ((rotN i V).take j) D1 w0 vj hXne hXh
        rw [htj, hD, hW1]
        rw [hsplit]
        rw [← rotN_shoelace i V]
        rw [← hD]
        rw [List.take_append_drop]

theorem convexLoop_of_findReflex_none {tol : ℚ} {V : List Point}
    (h : findReflex tol V = none) : ConvexLoop tol V := by
  intro i hi
  have hnone := List.find?_eq_none.mp h i (List.mem_range.mpr hi)
  simp only [isReflexAt, decide_eq_true_eq] at hnone
  exact not_lt.mp hnone

theorem decomposeAux_convex (tol : ℚ) :
    ∀ (fuel : ℕ) (V : List Point), V.length ≤ fuel →
      ∀ W2 ∈ decomposeAux tol fuel V,
        ConvexLoop tol W2 ∨ findDiagonal W2 = none := by
  intro fuel
  induction fuel with
  | zero =>
    intro V hle W2 hW2
    have hV : V = [] := List.length_eq_zero.mp (Nat.le_zero.mp hle)
    subst hV
    rw [show decomposeAux tol 0 [] = [[]] from rfl] at hW2
    rw [List.mem_singleton.mp hW2]
    left
    intro i hi
    rw [List.length_nil] at hi
    omega
  | succ fuel ih =>
    intro V hle W2 hW2
    rw [show decomposeAux tol (fuel + 1) V =
      (match findReflex tol V with
       | none => [V]
       | some i =>
         match findDiagonal (rotN i V) with
         | none => [rotN i V]
         | some j =>
             decomposeAux tol fuel ((rotN i V).take (j + 1)) ++
             decomposeAux tol fuel ((rotN i V).drop j ++ (rotN i V).take 1))
      from rfl] at hW2
    cases hr : findReflex tol V with
    | none =>
      rw [hr] at hW2
      dsimp only at hW2
      rw [List.mem_singleton.mp hW2]
      left
      exact convexLoop_of_findReflex_none hr
    | some i =>
      rw [hr] at hW2
      dsimp only at hW2
      cases hd : findDiagonal (rotN i V) with
      | none =>
        rw [hd] at hW2
        dsimp only at hW2
        rw [List.mem_singleton.mp hW2]
        right
        exact hd
      | some j =>
        rw [hd] at hW2
        dsimp only at hW2
        have hp := List.find?_some hd
        rw [Bool.and_eq_true, Bool.and_eq_true] at hp
        obtain ⟨⟨h2j, hj2⟩, _⟩ := hp
        rw [decide_eq_true_eq] at h2j
        rw [decide_eq_true_eq] at hj2
        have hlen : (rotN i V).length = V.length := rotN_length i V
        rcases List.mem_append.mp hW2 with h | h
        · apply ih ((rotN i V).take (j + 1)) ?_ W2 h
          rw [List.length_take]
          rw [hlen] at hj2
          rw [hlen]
          rw [Nat.min_eq_left (show j + 1 ≤ V.length by omega)]
          omega
        · apply ih ((rotN i V).drop j ++ (rotN i V).take 1) ?_ W2 h
          rw [List.length_append, List.length_drop, List.length_take]
          rw [hlen] at hj2
          rw [hlen]
          rw [Nat.min_eq_left (show 1 ≤ V.length by omega)]
          omega

theorem closeLoop_closed (V : List Point) :
    (closeLoop V).head? = (closeLoop V).getLast? := by
  cases V with
  | nil => rfl
  | cons v T =>
    rw [show closeLoop (v :: T) = (v :: T) ++ [v] from rfl]
    rw [head?_append_left [v] (List.cons_ne_nil v T)]
    rw [List.head?_cons]
    rw [getLast?_append_right (v :: T) [v] (List.cons_ne_nil v [])]
    rw [List.getLast?_singleton]

theorem dropLast_closeLoop (V : List Point) : (closeLoop V).dropLast = V := by
  cases V with
  | nil => rfl
  | cons v T =>
    rw [show closeLoop (v :: T) = (v :: T) ++ [v] from rfl]
    exact List.dropLast_concat

theorem shoelace_dropLast_closed (P : List Point) (hP : P ≠ [])
    (hclosed : P.head? = P.getLast?) :
    shoelaceLoop P.dropLast = shoelaceClosed P := by
  cases P with
  | nil => exact absurd rfl hP
  | cons p T =>
    cases T with
    | nil => rfl
    | cons q T2 =>
      have hne : (p :: q :: T2 : List Point) ≠ [] := List.cons_ne_nil _ _
      have hgl := List.getLast?_eq_getLast (p :: q :: T2) hne
      rw [hgl, List.head?_cons] at hclosed
      have hpl : (p :: q :: T2).getLast hne = p := (Option.some.inj hclosed).symm
      have hPd := List.dropLast_append_getLast hne
      rw [hpl] at hPd
      have h2 : 2 ≤ (p :: q :: T2 : List Point).length := by
        rw [List.length_cons, List.length_cons]
        omega
      have hdh : (p :: q :: T2 : List Point).dropLast.head? = some p := by
        rw [head?_dropLast h2]
        rfl
      rw [show shoelaceLoop (p :: q :: T2 : List Point).dropLast =
        shoelaceClosed ((p :: q :: T2 : List Point).dropLast ++
          (p :: q :: T2 : List Point).dropLast.take 1) from rfl]
      rw [take_one_of_head? hdh]
      rw [hPd]

/-- C6: for every nonempty closed input polyline, `convex_decomposition`
succeeds and returns closed pieces whose signed (shoelace) areas sum exactly
to the input polygon's signed area; every piece either passes the
tolerance-relaxed convexity test (no vertex turning inward by more than the
tolerance — strict convexity only at tolerance 0) or is a best-effort piece
for which no valid splitting diagonal exists (e.g. self-intersecting
input). -/
theorem C6_decomposition (P : List Point) (tol : ℚ) (hP : P ≠ [])
    (hclosed : P.head? = P.getLast?) :
    ∃ pieces, convex_decomposition P tol = Except.ok pieces ∧
      (∀ piece ∈ pieces, piece.head? = piece.getLast?) ∧
      ((pieces.map shoelaceClosed).sum = shoelaceClosed P) ∧
      (∀ piece ∈ pieces, ConvexLoop tol piece.dropLast ∨
        findDiagonal piece.dropLast = none) := by
  refine ⟨(decomposeAux tol P.length P.dropLast).map closeLoop, ?_, ?_, ?_, ?_⟩
  · rw [show convex_decomposition P tol =
      (if P = [] then Except.error GeomError.validation
       else Except.ok ((decomposeAux tol P.length P.dropLast).map closeLoop))
      from rfl]
    rw [if_neg hP]
  · intro piece hpiece
    obtain ⟨V, hV, he⟩ := List.mem_map.mp hpiece
    rw [← he]
    exact closeLoop_closed V
  · rw [List.map_map]
    have hcomp : (shoelaceClosed ∘ closeLoop) = shoelaceLoop := by
      funext V
      rfl
    rw [hcomp]
    rw [decomposeAux_area tol P.length P.dropLast]
    exact shoelace_dropLast_closed P hP hclosed
  · intro piece hpiece
    obtain ⟨V, hV, he⟩ := List.mem_map.mp hpiece
    have hconv := decomposeAux_convex tol P.length P.dropLast ?_ V hV
    · rw [← he]
      rw [dropLast_closeLoop V]
      exact hconv
    · rw [List.length_dropLast]
      omega

/-- C6 witness: the L-shaped hexagon decomposes with all hypotheses
concretely discharged. -/
theorem C6_decomposition_witness :
    (([((0:ℚ),(0:ℚ)), (2,0), (2,1), (1,1), (1,2), (0,2), (0,0)] : List Point) ≠ []) ∧
    (([((0:ℚ),(0:ℚ)), (2,0), (2,1), (1,1), (1,2), (0,2), (0,0)] : List Point).head? =
     ([((0:ℚ),(0:ℚ)), (2,0), (2,1), (1,1), (1,2), (0,2), (0,0)] : List Point).getLast?) ∧
    (∃ pieces,
      convex_decomposition
        [((0:ℚ),(0:ℚ)), (2,0), (2,1), (1,1), (1,2), (0,2), (0,0)] 0 =
        Except.ok pieces ∧
      (∀ piece ∈ pieces, piece.head? = piece.getLast?) ∧
      ((pieces.map shoelaceClosed).sum =
        shoelaceClosed [((0:ℚ),(0:ℚ)), (2,0), (2,1), (1,1), (1,2), (0,2), (0,0)]) ∧
      (∀ piece ∈ pieces, ConvexLoop 0 piece.dropLast ∨
        findDiagonal piece.dropLast = none)) :=
  ⟨by decide, by decide,
    C6_decomposition [((0:ℚ),(0:ℚ)), (2,0), (2,1), (1,1), (1,2), (0,2), (0,0)] 0
      (by decide) (by decide)⟩

/-- C6 counterexample to the unconditional convexity claim: at tolerance 10
the dented quadrilateral is already accepted as "convex enough" and returned
as a single piece, but that piece has a strictly reflex vertex — it is not a
convex polygon. -/
theorem C6_counterexample :
    convex_decomposition [((0:ℚ),(0:ℚ)), (4,0), (2,1), (4,4), (0,4), (0,0)] 10 =
      Except.ok [[((0:ℚ),(0:ℚ)), (4,0), (2,1), (4,4), (0,4), (0,0)]] ∧
    cross ((4:ℚ),(0:ℚ)) (2,1) (4,4) < 0 := by
  constructor
  · rfl
  · decide

/-- C2: every validation precondition is checked up front and fails with a
validation error before any processing: the tracers reject too-few samples or
a degenerate bounding box for every sample callback (no sample is consulted
and no segment is emitted — the result is the error, independent of the
callback); the hull and both simplifiers reject fewer than 2 distinct points;
decomposition rejects an empty polygon. -/
theorem C2_validation_fail_fast :
    (∀ (bb : BB) (xs ys : ℕ) (th : ℚ) (sample : Point → ℚ),
      xs < 2 ∨ ys < 2 ∨ bb.r ≤ bb.l ∨ bb.t ≤ bb.b →
        march_soft bb xs ys th sample = Except.error GeomError.validation ∧
        march_hard bb xs ys th sample = Except.error GeomError.validation) ∧
    (∀ (pts : List Point) (tol : ℚ), pts.dedup.length < 2 →
        to_convex_hull pts tol = Except.error GeomError.validation ∧
        simplify_curves pts tol = Except.error GeomError.validation ∧
        simplify_vertexes pts tol = Except.error GeomError.validation) ∧
    (∀ tol : ℚ, convex_decomposition [] tol = Except.error GeomError.validation) := by
  refine ⟨?_, ?_, ?_⟩
  · intro bb xs ys th sample hbad
    have hnv : ¬ marchValid bb xs ys := by
      intro hv
      obtain ⟨h1, h2, h3, h4⟩ := hv
      rcases hbad with h | h | h | h
      · omega
      · omega
      · linarith
      · linarith
    constructor
    · rw [show march_soft bb xs ys th sample =
        (if marchValid bb xs ys then
          Except.ok (marchSegs marchCellSoft bb xs ys th sample)
         else Except.error GeomError.validation) from rfl]
      rw [if_neg hnv]
    · rw [show march_hard bb xs ys th sample =
        (if marchValid bb xs ys then
          Except.ok (marchSegs marchCellHard bb xs ys th sample)
         else Except.error GeomError.validation) from rfl]
      rw [if_neg hnv]
  · intro pts tol hlt
    have hn : ¬ 2 ≤ pts.dedup.length := by omega
    refine ⟨?_, ?_, ?_⟩
    · rw [show to_convex_hull pts tol =
        (if 2 ≤ pts.dedup.length then Except.ok (convexHullRun (tol ^ 2) pts)
         else Except.error GeomError.validation) from rfl]
      rw [if_neg hn]
    · rw [show simplify_curves pts tol =
        (if 2 ≤ pts.dedup.length then Except.ok (simplifyCurvesRun (tol ^ 2) pts)
         else Except.error GeomError.validation) from rfl]
      rw [if_neg hn]
    · rw [show simplify_vertexes pts tol =
        (if 2 ≤ pts.dedup.length then Except.ok (simplifyVertexesRun (tol ^ 2) pts)
         else Except.error GeomError.validation) from rfl]
      rw [if_neg hn]
  · intro tol
    rfl

/-- C2 witness: concrete rejections — a 1-column trace, a two-copies-of-one-
point hull/simplify call, and an empty decomposition input. -/
theorem C2_validation_fail_fast_witness :
    ((1:ℕ) < 2 ∨ (7:ℕ) < 2 ∨ (6:ℚ) ≤ 0 ∨ (6:ℚ) ≤ 0) ∧
    (march_soft ⟨0, 0, 6, 6⟩ 1 7 (1/2) imgSample =
        Except.error GeomError.validation ∧
     march_hard ⟨0, 0, 6, 6⟩ 1 7 (1/2) imgSample =
        Except.error GeomError.validation) ∧
    (([((1:ℚ),(1:ℚ)), (1,1)] : List Point).dedup.length < 2) ∧
    (to_convex_hull [((1:ℚ),(1:ℚ)), (1,1)] 0 = Except.error GeomError.validation ∧
     simplify_curves [((1:ℚ),(1:ℚ)), (1,1)] 0 = Except.error GeomError.validation ∧
     simplify_vertexes [((1:ℚ),(1:ℚ)), (1,1)] 0 =
        Except.error GeomError.validation) ∧
    convex_decomposition [] (5:ℚ) = Except.error GeomError.validation :=
  ⟨Or.inl (by decide),
   C2_validation_fail_fast.1 ⟨0, 0, 6, 6⟩ 1 7 (1/2) imgSample (Or.inl (by decide)),
   by decide,
   C2_validation_fail_fast.2.1 [((1:ℚ),(1:ℚ)), (1,1)] 0 (by decide),
   C2_validation_fail_fast.2.2 5⟩

end Pymunk
